import Mathlib

/-!
Shallow embedding of the redcache-ai memory store (`redcache_ai/core.py`,
`redcache_ai/storage.py`, `redcache_ai/config.py`, `redcache_ai/llm/openai_llm.py`).

Python dicts preserve insertion order, so they are modelled as association
lists over `String` keys; assignment updates an existing key in place and
appends a fresh key at the end, exactly as a Python dict does.  NumPy float
arrays are modelled as lists of real numbers (idealised real arithmetic in
place of IEEE floats); the integer bookkeeping around them (token counts,
vector dimensions) is exact.  `uuid4()` is modelled by passing the fresh id
as an explicit argument, and Python's process-wide string `hash` as an
explicit function `String → ℕ` carried in the store state.
-/

/-- Association list with string keys: the model of a Python `dict`. -/
abbrev PyDict (α : Type) := List (String × α)

/-- Keyed-list lookup (`d[k]`, or a primary-key row lookup), `none` when the
key is absent.  Generic in the key type: `String` for Python dicts,
`String × String` for the SQLite table. -/
def aget [DecidableEq κ] (k : κ) : List (κ × α) → Option α
  | [] => none
  | (k', v) :: t => if k' = k then some v else aget k t

/-- Keyed-list assignment (`d[k] = v`, or `INSERT OR REPLACE` by primary
key): replace in place if present, append otherwise. -/
def aset [DecidableEq κ] (k : κ) (v : α) : List (κ × α) → List (κ × α)
  | [] => [(k, v)]
  | (k', v') :: t => if k' = k then (k, v) :: t else (k', v') :: aset k v t

/-- `del d[k]`: drop the entry with key `k` (the first one, keys are unique). -/
def adel [DecidableEq κ] (k : κ) : List (κ × α) → List (κ × α)
  | [] => []
  | (k', v') :: t => if k' = k then t else (k', v') :: adel k t

/-- `d.keys()` in iteration order. -/
def akeys (l : List (κ × α)) : List κ := l.map Prod.fst

/-- Two-level lookup `d[u][k]` that is `none` when either key is absent. -/
def lookup2 (d : PyDict (PyDict α)) (u k : String) : Option α :=
  (aget u d).bind (aget k)

/-- The nested `metadata` object stored inside every memory record
(`core.py`, `RedCache.add`). -/
structure MemoryMetadata where
  data : String
  category : String

/-- A stored memory record:
`{"id": ..., "text": ..., "metadata": {...}, "vector": [...]}`. -/
structure Memory where
  id : String
  text : String
  metadata : MemoryMetadata
  vector : List ℝ

/-- The `{id, event, data}` summary dictionaries returned by `add`/`update`. -/
structure OpSummary where
  id : String
  event : String
  data : String
deriving DecidableEq

/-- Characters kept by `_preprocess_text`'s regex `[^a-zA-Z0-9\s]` deletion. -/
def keepChar (c : Char) : Bool := c.isAlpha || c.isDigit || c.isWhitespace

/-- Split a character stream on whitespace, accumulating the current word in
reverse; models Python `str.split()` (empty pieces dropped). -/
def tokenizeChars : List Char → List Char → List String
  | [], cur => if cur = [] then [] else [String.mk cur.reverse]
  | c :: rest, cur =>
    if c.isWhitespace then
      if cur = [] then tokenizeChars rest []
      else String.mk cur.reverse :: tokenizeChars rest []
    else tokenizeChars rest (c :: cur)

/-- `_preprocess_text` followed by `.split()`: lowercase, strip every
character that is not an ASCII letter, digit or whitespace, then split on
whitespace.  (`core.py` lines 103-105 compose the join and the later split;
the net effect on the token list is this.) -/
def tokenize (text : String) : List String :=
  tokenizeChars ((text.toList.map Char.toLower).filter keepChar) []

/-- `self.vocabulary.update(...)` for one token: Python set insertion, a
no-op on a token already present.  Iteration order of the set is
implementation defined; the model fixes first-insertion order. -/
def vocabAdd (voc : List String) (t : String) : List String :=
  if t ∈ voc then voc else voc ++ [t]

/-- `self.vocabulary.update(preprocessed_text.split())`. -/
def vocabUnion (voc : List String) (ts : List String) : List String :=
  ts.foldl vocabAdd voc

/-- The un-normalised count vector built by `_vectorize_text` (lines
120-129): dedicated coordinates per vocabulary token while `|vocab| < D`,
hashed buckets `hash(word) % D` once the vocabulary has reached `D`. -/
def rawVector (h : String → ℕ) (D : ℕ) (voc tokens : List String) : List ℚ :=
  if voc.length < D then
    List.ofFn (fun i : Fin D =>
      if hi : i.1 < voc.length then
        ((tokens.countP (fun t => t == voc.get ⟨i.1, hi⟩) : ℕ) : ℚ)
      else 0)
  else
    List.ofFn (fun b : Fin D => ((tokens.countP (fun t => h t % D == b.1) : ℕ) : ℚ))

/-- Squared L2 norm of the raw count vector (exact, in ℚ). -/
def normSq (raw : List ℚ) : ℚ := (raw.map (fun x => x * x)).sum

/-- `return vector if norm == 0 else vector / norm` (line 132).  The code
tests `np.linalg.norm(vector) == 0`; since the norm is `√(normSq)` and the
raw vector is exact, that test is equivalent to `normSq = 0`. -/
noncomputable def normalizeVec (raw : List ℚ) : List ℝ :=
  if normSq raw = 0 then raw.map (fun q : ℚ => (q : ℝ))
  else raw.map (fun q : ℚ => (q : ℝ) / Real.sqrt ((normSq raw : ℚ) : ℝ))

/-- The in-memory state of a `RedCache` instance (`core.py` `__init__`).
`saved` models the content most recently written through
`self.storage.save(self.user_memories)` (snapshot semantics of the default
`DiskStorage`); `strHash` models Python's built-in string `hash`. -/
structure RedCache where
  user_memories : PyDict (PyDict Memory)
  vector_data : PyDict (List ℝ)
  vector_index : PyDict (PyDict ℝ)
  vector_size : ℕ
  vocabulary : List String
  strHash : String → ℕ
  llm : Option (String → String)
  saved : PyDict (PyDict Memory)

/-- `_vectorize_text`: updates the vocabulary, then encodes with the branch
chosen against the updated vocabulary size, then L2-normalises. -/
noncomputable def vectorizeText (s : RedCache) (text : String) : List ℝ × RedCache :=
  let tokens := tokenize text
  let voc := vocabUnion s.vocabulary tokens
  (normalizeVec (rawVector s.strHash s.vector_size voc tokens),
   { s with vocabulary := voc })

/-- `np.dot` on two equal-length arrays. -/
noncomputable def dotl (a b : List ℝ) : ℝ := (List.zipWith (fun x y => x * y) a b).sum

/-- `_update_index(vector_id, vector)`: for every id already in
`vector_data` (the new id included, it has just been written), store
`dot(vector, existing)` at `index[existing][vector_id]`. -/
noncomputable def updateIndex (s : RedCache) (vector_id : String) (vector : List ℝ) : RedCache :=
  let idx1 := s.vector_data.foldl
    (fun idx (je : String × List ℝ) =>
      aset je.1 (aset vector_id (dotl vector je.2) ((aget je.1 idx).getD [])) idx)
    s.vector_index
  { s with vector_index := idx1 }

/-- `RedCache.add(text, user_id, category="general")`; `newId` stands for
the fresh `str(uuid4())`. -/
noncomputable def RedCache.add (s : RedCache) (text user_id category newId : String) :
    List OpSummary × RedCache :=
  let p := vectorizeText s text
  let vector := p.1
  let s1 := p.2
  let memory : Memory := ⟨newId, text, ⟨text, category⟩, vector⟩
  let um0 := if (aget user_id s1.user_memories).isSome then s1.user_memories
             else aset user_id [] s1.user_memories
  let um1 := aset user_id (aset newId memory ((aget user_id um0).getD [])) um0
  let s2 := { s1 with user_memories := um1,
                      vector_data := aset newId vector s1.vector_data }
  let s3 := updateIndex s2 newId vector
  ([⟨newId, "add", text⟩], { s3 with saved := s3.user_memories })

/-- `RedCache.get_all(user_id)`. -/
def RedCache.get_all (s : RedCache) (user_id : String) : List Memory :=
  ((aget user_id s.user_memories).getD []).map Prod.snd

/-- Python list slice `l[:n]`, including the negative-index case
(`l[:-k]` drops the last `k` elements, clamped at the empty list). -/
def pySlice (n : Int) (l : List α) : List α :=
  if 0 ≤ n then l.take n.toNat else l.take (l.length - (-n).toNat)

/-- One step of the stable descending sort performed by
`results.sort(key=lambda x: x[1], reverse=True)`: insert `x` after every
element of strictly greater score and before the rest (equal scores keep
the earlier element first). -/
noncomputable def insertDesc (x : Memory × ℝ) : List (Memory × ℝ) → List (Memory × ℝ)
  | [] => [x]
  | y :: ys => if x.2 < y.2 then y :: insertDesc x ys else x :: y :: ys

/-- Stable descending-by-score sort.  Python's `list.sort` is stable, and a
stable sort's output is determined by the order and stability alone, so
insertion sort is an exact model. -/
noncomputable def pySortDesc : List (Memory × ℝ) → List (Memory × ℝ)
  | [] => []
  | x :: xs => insertDesc x (pySortDesc xs)

/-- `RedCache.search(query, user_id, num_results=5)`; each result is the
memory paired with its score (`{**memory, "score": float(score)}`).
Vectorising the query mutates the vocabulary, so the updated state is
returned alongside the results. -/
noncomputable def RedCache.search (s : RedCache) (query user_id : String) (num_results : Int) :
    List (Memory × ℝ) × RedCache :=
  let p := vectorizeText s query
  let qv := p.1
  let s1 := p.2
  let results := ((aget user_id s1.user_memories).getD []).map
    (fun me => (me.2, dotl qv me.2.vector))
  (pySlice num_results (pySortDesc results), s1)

/-- `RedCache.update(memory_id, data, user_id)`: raises
`ValueError("Memory not found")` before touching anything when the
`(user_id, memory_id)` pair is absent; the unchanged state is returned
alongside the error. -/
noncomputable def RedCache.update (s : RedCache) (memory_id data user_id : String) :
    Except String OpSummary × RedCache :=
  match lookup2 s.user_memories user_id memory_id with
  | none => (Except.error "Memory not found", s)
  | some memory =>
    let p := vectorizeText s data
    let new_vector := p.1
    let s1 := p.2
    let memory1 : Memory :=
      { memory with text := data,
                    metadata := { memory.metadata with data := data },
                    vector := new_vector }
    let um1 := aset user_id (aset memory_id memory1 ((aget user_id s1.user_memories).getD []))
                 s1.user_memories
    let s2 := { s1 with user_memories := um1,
                        vector_data := aset memory_id new_vector s1.vector_data }
    let s3 := updateIndex s2 memory_id new_vector
    (Except.ok ⟨memory_id, "update", data⟩, { s3 with saved := s3.user_memories })

/-- `RedCache.delete(memory_id, user_id)`: a no-op unless the pair exists;
otherwise removes the record, its vector, and every index entry keyed by
`memory_id` inside each row (the row itself is left in place), then saves. -/
noncomputable def RedCache.delete (s : RedCache) (memory_id user_id : String) : RedCache :=
  if (lookup2 s.user_memories user_id memory_id).isSome then
    let s1 := { s with
      user_memories := aset user_id (adel memory_id ((aget user_id s.user_memories).getD []))
                         s.user_memories,
      vector_data := adel memory_id s.vector_data,
      vector_index := s.vector_index.map
        (fun (je : String × PyDict ℝ) => (je.1, adel memory_id je.2)) }
    { s1 with saved := s1.user_memories }
  else s

/-- `RedCache.delete_all(user_id)`: delete each memory id (iterating over a
snapshot of the key list), then drop the user entry, then save again. -/
noncomputable def RedCache.delete_all (s : RedCache) (user_id : String) : RedCache :=
  if (aget user_id s.user_memories).isSome then
    let ids := akeys ((aget user_id s.user_memories).getD [])
    let s1 := ids.foldl (fun st mid => st.delete mid user_id) s
    let s2 := { s1 with user_memories := adel user_id s1.user_memories }
    { s2 with saved := s2.user_memories }
  else s

/-- `RedCache.reset()`: clears users, vectors and the index (the vocabulary
is untouched) and saves the empty state. -/
def RedCache.reset (s : RedCache) : RedCache :=
  { s with user_memories := [], vector_data := [], vector_index := [], saved := [] }

/-- `RedCache.enhance_memory(text, user_id, category)`. -/
noncomputable def RedCache.enhance_memory (s : RedCache) (text user_id category newId : String) :
    Except String (List OpSummary) × RedCache :=
  match s.llm with
  | none => (Except.error "LLM not configured. Cannot enhance memory.", s)
  | some gen =>
    let r := s.add (gen ("Enhance the following memory with additional relevant details:\n\n" ++ text))
               user_id category newId
    (Except.ok r.1, r.2)

/-- `RedCache.generate_summary(user_id)` (no state mutation). -/
def RedCache.generate_summary (s : RedCache) (user_id : String) : Except String String :=
  match s.llm with
  | none => Except.error "LLM not configured. Cannot generate summary."
  | some gen =>
    Except.ok (gen ("Summarize the following memories:\n\n" ++
      String.intercalate "\n" ((s.get_all user_id).map Memory.text)))

/-- `_rebuild_vector_data`: re-register every loaded memory's vector in the
vector table and the index. -/
noncomputable def rebuildVectorData (s : RedCache) : RedCache :=
  s.user_memories.foldl
    (fun st ue =>
      ue.2.foldl
        (fun st2 me =>
          updateIndex { st2 with vector_data := aset me.1 me.2.vector st2.vector_data }
            me.1 me.2.vector)
        st)
    s

/-- `RedCache.__init__`: load the persisted state, start with empty vector
table, index and vocabulary, then rebuild the vector bookkeeping. -/
noncomputable def mkRedCache (loaded : PyDict (PyDict Memory)) (vector_size : ℕ)
    (h : String → ℕ) (llm : Option (String → String)) : RedCache :=
  rebuildVectorData
    { user_memories := loaded, vector_data := [], vector_index := [],
      vector_size := vector_size, vocabulary := [], strHash := h,
      llm := llm, saved := loaded }

/-- `DiskStorage` persisted content: the snapshot file, `none` before the
first save (`load` then returns `{}`).  The JSON round trip of the nested
mapping is modelled as the identity. -/
def diskSave (data : PyDict (PyDict α)) (_file : Option (PyDict (PyDict α))) :
    Option (PyDict (PyDict α)) := some data

/-- `DiskStorage.load`. -/
def diskLoad (file : Option (PyDict (PyDict α))) : PyDict (PyDict α) := file.getD []

/-- The `memories` table of `SQLiteStorage`: rows `(user_id, memory_id, data)`
with primary key `(user_id, memory_id)`. -/
abbrev SqlTable (α : Type) := List ((String × String) × α)

/-- `SQLiteStorage.save`: `INSERT OR REPLACE` one row per
`(user_id, memory_id, record)` of the given state (`aset` by the composite
primary key; scan order of the table is implementation defined, the model
keeps a replaced row in place).  Rows absent from the state are left
untouched. -/
def sqliteSave (data : PyDict (PyDict α)) (t : SqlTable α) : SqlTable α :=
  data.foldl
    (fun acc (ue : String × PyDict α) =>
      ue.2.foldl (fun acc2 (me : String × α) => aset (ue.1, me.1) me.2 acc2) acc)
    t

/-- `SQLiteStorage.load`: full-table scan reassembling the nested mapping. -/
def sqliteLoad (t : SqlTable α) : PyDict (PyDict α) :=
  t.foldl
    (fun d (row : (String × String) × α) =>
      aset row.1.1 (aset row.1.2 row.2 ((aget row.1.1 d).getD [])) d)
    []

/-- Python `dict` equality for the nested user→memory-id→record mapping:
the same user keys are present, and present users carry extensionally equal
inner mappings (a user with an empty inner dict is distinct from an absent
user, as in Python). -/
def stateEqv (d e : PyDict (PyDict α)) : Prop :=
  (∀ u, (aget u d).isSome = (aget u e).isSome) ∧ ∀ u k, lookup2 d u k = lookup2 e u k

/-- The `storage` section of a configuration dictionary. -/
structure StorageSection where
  backend : Option String

/-- The provider-specific `config` sub-dictionary of the `llm` section
(`OpenAILLM.__init__` reads these keys). -/
structure LLMProviderConfig where
  model : Option String
  temperature : Option ℚ
  max_tokens : Option ℕ
  base_url : Option String
  api_key : Option String

/-- The `llm` section: `provider` plus the nested provider config.
`none` for the nested config models `llm_config.get("config", {})`
returning the default empty dict. -/
structure LLMSection where
  provider : Option String
  config : Option LLMProviderConfig

/-- A configuration dictionary for `RedCache.from_config`.  `llm := none`
models both an absent `llm` key and a present-but-empty (hence falsy)
`llm` dictionary, which the code treats identically. -/
structure AppConfig where
  storage : Option StorageSection
  llm : Option LLMSection

/-- The fields of a successfully constructed `OpenAILLM` instance. -/
structure OpenAILLMInst where
  model : String
  temperature : ℚ
  max_tokens : ℕ
  base_url : String
  api_key : String
deriving DecidableEq

/-- The storage backend selected by `from_config`. -/
inductive StorageChoice where
  | disk
  | sqlite
deriving DecidableEq

/-- The default empty provider config dict. -/
def emptyProviderConfig : LLMProviderConfig := ⟨none, none, none, none, none⟩

/-- Python's `a or b` for an optional string `a`: `a` unless it is falsy
(`None` or the empty string). -/
def pyOrStr (a b : Option String) : Option String :=
  if a.getD "" = "" then b else a

/-- `OpenAILLM.__init__(config)`; `env_api_key` models
`os.getenv("OPENAI_API_KEY")`.  Raises when neither the config nor the
environment yields a truthy API key. -/
def mkOpenAILLM (cfg : LLMProviderConfig) (env_api_key : Option String) :
    Except String OpenAILLMInst :=
  let api_key := pyOrStr cfg.api_key env_api_key
  if api_key.getD "" = "" then
    Except.error "API key not found. Please provide it in the config or set the OPENAI_API_KEY environment variable."
  else
    Except.ok ⟨cfg.model.getD "gpt-3.5-turbo", cfg.temperature.getD (7/10),
      cfg.max_tokens.getD 150, cfg.base_url.getD "https://api.openai.com/v1",
      api_key.getD ""⟩

/-- The LLM half of `from_config`: nothing to build when the `llm` section
is absent or falsy; `OpenAILLM` for provider `"openai"`; an error for any
other provider (including a missing `provider` key). -/
def buildLLM (config : AppConfig) (env_api_key : Option String) :
    Except String (Option OpenAILLMInst) :=
  match config.llm with
  | none => Except.ok none
  | some lc =>
    if lc.provider = some "openai" then
      (mkOpenAILLM (lc.config.getD emptyProviderConfig) env_api_key).map some
    else Except.error "Unsupported LLM provider"

/-- `RedCache.from_config(config)`: resolve the storage backend selector
(default `"disk"`), failing on an unsupported one, then build the optional
LLM. -/
def from_config (config : AppConfig) (env_api_key : Option String) :
    Except String (StorageChoice × Option OpenAILLMInst) :=
  let sb := ((config.storage.getD ⟨none⟩).backend).getD "disk"
  if sb = "disk" then
    (buildLLM config env_api_key).map (fun l => (StorageChoice.disk, l))
  else if sb = "sqlite" then
    (buildLLM config env_api_key).map (fun l => (StorageChoice.sqlite, l))
  else Except.error ("Unsupported storage backend: " ++ sb)

/-! ### Association-list lemmas -/

theorem aget_aset_self [DecidableEq κ] (k : κ) (v : α) (l : List (κ × α)) :
    aget k (aset k v l) = some v := by
  induction l with
  | nil => simp [aset, aget]
  | cons h t ih =>
    by_cases hk : h.1 = k
    · simp [aset, aget, hk]
    · simp [aset, aget, hk, ih]

theorem aget_aset_ne [DecidableEq κ] {k' k : κ} (h : k' ≠ k) (v : α) (l : List (κ × α)) :
    aget k (aset k' v l) = aget k l := by
  induction l with
  | nil => simp [aset, aget, h]
  | cons hd t ih =>
    by_cases hk : hd.1 = k'
    · simp [aset, aget, hk, h]
    · simp only [aset, hk, if_neg hk]
      by_cases hk2 : hd.1 = k
      · simp [aget, hk2]
      · simp [aget, hk2, ih]

theorem isSome_aget_iff [DecidableEq κ] (k : κ) (l : List (κ × α)) :
    (aget k l).isSome ↔ k ∈ akeys l := by
  induction l with
  | nil => simp [aget, akeys]
  | cons hd t ih =>
    by_cases hk : hd.1 = k
    · simp [aget, akeys, hk]
    · simp [aget, akeys, hk, ih, Ne.symm hk]

theorem aget_eq_none_iff [DecidableEq κ] (k : κ) (l : List (κ × α)) :
    aget k l = none ↔ k ∉ akeys l := by
  rw [← isSome_aget_iff]
  cases aget k l <;> simp

theorem akeys_aset_mem [DecidableEq κ] {k : κ} (v : α) {l : List (κ × α)} (h : k ∈ akeys l) :
    akeys (aset k v l) = akeys l := by
  induction l with
  | nil => simp [akeys] at h
  | cons hd t ih =>
    by_cases hk : hd.1 = k
    · simp [aset, akeys, hk]
    · have h2 : k ∈ akeys t := by
        simp only [akeys, List.map_cons, List.mem_cons] at h
        rcases h with h | h
        · exact absurd h.symm hk
        · exact h
      have := ih h2
      simp only [aset, if_neg hk, akeys, List.map_cons]
      simp only [akeys] at this
      rw [this]

theorem akeys_aset_not_mem [DecidableEq κ] {k : κ} (v : α) {l : List (κ × α)} (h : k ∉ akeys l) :
    akeys (aset k v l) = akeys l ++ [k] := by
  induction l with
  | nil => simp [aset, akeys]
  | cons hd t ih =>
    simp only [akeys, List.map_cons, List.mem_cons] at h
    push_neg at h
    have := ih h.2
    simp only [aset, if_neg (Ne.symm h.1), akeys, List.map_cons]
    simp only [akeys] at this
    rw [this]
    rfl

theorem mem_akeys_aset [DecidableEq κ] (a k : κ) (v : α) (l : List (κ × α)) :
    a ∈ akeys (aset k v l) ↔ a = k ∨ a ∈ akeys l := by
  by_cases hm : k ∈ akeys l
  · rw [akeys_aset_mem v hm]
    constructor
    · exact Or.inr
    · rintro (rfl | h)
      · exact hm
      · exact h
  · rw [akeys_aset_not_mem v hm]
    simp [or_comm]

theorem nodup_akeys_aset [DecidableEq κ] {k : κ} (v : α) {l : List (κ × α)}
    (h : (akeys l).Nodup) : (akeys (aset k v l)).Nodup := by
  by_cases hm : k ∈ akeys l
  · rwa [akeys_aset_mem v hm]
  · rw [akeys_aset_not_mem v hm]
    exact List.Nodup.append h (by simp) (by simpa using fun h2 => hm h2)

theorem aget_adel_ne [DecidableEq κ] {k' k : κ} (h : k' ≠ k) (l : List (κ × α)) :
    aget k (adel k' l) = aget k l := by
  induction l with
  | nil => simp [adel]
  | cons hd t ih =>
    by_cases hk : hd.1 = k'
    · simp [adel, aget, hk, h]
    · by_cases hk2 : hd.1 = k
      · simp only [adel, if_neg hk]
        simp [aget, hk2]
      · simp [adel, aget, hk, hk2, ih]

theorem akeys_adel [DecidableEq κ] (k : κ) (l : List (κ × α)) :
    akeys (adel k l) = (akeys l).erase k := by
  induction l with
  | nil => simp [adel, akeys]
  | cons hd t ih =>
    by_cases hk : hd.1 = k
    · simp [adel, akeys, hk, List.erase_cons_head]
    · simp only [adel, if_neg hk, akeys, List.map_cons, ih]
      rw [List.erase_cons_tail (by simp [hk])]
      exact congrArg _ ih

theorem aget_adel_self [DecidableEq κ] {k : κ} {l : List (κ × α)} (h : (akeys l).Nodup) :
    aget k (adel k l) = none := by
  rw [aget_eq_none_iff, akeys_adel]
  exact (h.mem_erase_iff).mp.mt (by simp)

theorem nodup_akeys_adel [DecidableEq κ] (k : κ) {l : List (κ × α)}
    (h : (akeys l).Nodup) : (akeys (adel k l)).Nodup := by
  rw [akeys_adel]; exact h.erase k

theorem lookup2_eq_aget_getD (d : PyDict (PyDict α)) (u k : String) :
    lookup2 d u k = aget k ((aget u d).getD []) := by
  unfold lookup2
  cases aget u d <;> simp [aget]

/-! ### Storage round-trip lemmas (claim C1) -/

/-- Left-biased choice on options (`a` if present, else `b`). -/
def oElse (a b : Option α) : Option α :=
  match a with
  | some v => some v
  | none => b

theorem oElse_some {a : Option α} {v : α} (h : a = some v) (b : Option α) :
    oElse a b = some v := by
  subst h; rfl

theorem oElse_none {a : Option α} (h : a = none) (b : Option α) :
    oElse a b = b := by
  subst h; rfl

/-- Wellformedness of a nested mapping produced by Python dicts: no
duplicate user keys, no duplicate memory-id keys inside a user. -/
def wfState (d : PyDict (PyDict α)) : Prop :=
  (akeys d).Nodup ∧ ∀ p ∈ d, (akeys p.2).Nodup

instance (d : PyDict (PyDict α)) : Decidable (wfState d) := by
  unfold wfState; infer_instance

theorem stateEqv_refl (d : PyDict (PyDict α)) : stateEqv d d :=
  ⟨fun _ => rfl, fun _ _ => rfl⟩

theorem aget_mem [DecidableEq κ] {k : κ} {l : List (κ × α)} {v : α}
    (h : aget k l = some v) : (k, v) ∈ l := by
  induction l with
  | nil => simp [aget] at h
  | cons hd t ih =>
    by_cases hk : hd.1 = k
    · simp only [aget, if_pos hk] at h
      cases h
      subst hk
      exact List.mem_cons_self _ _
    · simp only [aget, if_neg hk] at h
      exact List.mem_cons_of_mem _ (ih h)

theorem isSome_of_bind_isSome {o : Option α} {f : α → Option β}
    (h : (o.bind f).isSome) : o.isSome := by
  cases o <;> simp_all

/-- The flattened `(primary key, record)` rows written by `SQLiteStorage.save`. -/
def pairsOf (d : PyDict (PyDict α)) : SqlTable α :=
  (d.map (fun ue => ue.2.map (fun me => ((ue.1, me.1), me.2)))).flatten

theorem sqliteSave_eq_foldl (d : PyDict (PyDict α)) (t : SqlTable α) :
    sqliteSave d t = (pairsOf d).foldl (fun acc rm => aset rm.1 rm.2 acc) t := by
  induction d generalizing t with
  | nil => rfl
  | cons ue d ih =>
    have h1 : sqliteSave (ue :: d) t =
        sqliteSave d (ue.2.foldl (fun acc2 me => aset (ue.1, me.1) me.2 acc2) t) := rfl
    rw [h1, ih]
    simp only [pairsOf, List.map_cons, List.flatten_cons, List.foldl_append, List.foldl_map]

theorem aget_foldl_aset [DecidableEq κ] (rows : List (κ × α)) (t : List (κ × α)) (k : κ)
    (h : (akeys rows).Nodup) :
    aget k (rows.foldl (fun acc rm => aset rm.1 rm.2 acc) t) =
      oElse (aget k rows) (aget k t) := by
  induction rows generalizing t with
  | nil => simp [aget, oElse]
  | cons rm rows ih =>
    have hn : (akeys rows).Nodup := by
      simp only [akeys, List.map_cons, List.nodup_cons] at h
      exact h.2
    rw [List.foldl_cons, ih _ hn]
    by_cases hk : rm.1 = k
    · subst hk
      have h0 : aget rm.1 rows = none := by
        rw [aget_eq_none_iff]
        simp only [akeys, List.map_cons, List.nodup_cons] at h
        exact h.1
      rw [oElse_none h0, aget_aset_self]
      have h1 : aget rm.1 (rm :: rows) = some rm.2 := by
        simp [aget]
      rw [oElse_some h1]
    · rw [aget_aset_ne hk]
      have h1 : aget k (rm :: rows) = aget k rows := by
        simp [aget, hk]
      rw [h1]

theorem nodup_akeys_foldl_aset [DecidableEq κ] (rows : List (κ × α)) {t : List (κ × α)}
    (h : (akeys t).Nodup) :
    (akeys (rows.foldl (fun acc rm => aset rm.1 rm.2 acc) t)).Nodup := by
  induction rows generalizing t with
  | nil => exact h
  | cons rm rows ih => exact ih (nodup_akeys_aset _ h)

theorem mem_akeys_foldl_aset [DecidableEq κ] (rows : List (κ × α)) (t : List (κ × α)) (k : κ) :
    k ∈ akeys (rows.foldl (fun acc rm => aset rm.1 rm.2 acc) t) ↔
      k ∈ akeys rows ∨ k ∈ akeys t := by
  induction rows generalizing t with
  | nil => simp [akeys]
  | cons rm rows ih =>
    rw [List.foldl_cons, ih]
    rw [show akeys (rm :: rows) = rm.1 :: akeys rows from rfl]
    simp only [List.mem_cons]
    have := mem_akeys_aset k rm.1 rm.2 t
    tauto

theorem aget_append [DecidableEq κ] (k : κ) (l1 l2 : List (κ × α)) :
    aget k (l1 ++ l2) = oElse (aget k l1) (aget k l2) := by
  induction l1 with
  | nil => simp [aget, oElse]
  | cons hd t ih =>
    by_cases hk : hd.1 = k
    · simp [aget, hk, oElse]
    · simp [aget, hk, ih]

theorem aget_pairsOf_map (u m : String) (um : PyDict α) :
    aget (u, m) (um.map (fun me => ((u, me.1), me.2))) = aget m um := by
  induction um with
  | nil => simp [aget]
  | cons me t ih =>
    by_cases hm : me.1 = m
    · simp [aget, hm]
    · simp [aget, hm, ih, Prod.ext_iff]

theorem fst_mem_of_mem_akeys_pairsOf {u m : String} {d : PyDict (PyDict α)}
    (h : (u, m) ∈ akeys (pairsOf d)) : u ∈ akeys d := by
  induction d with
  | nil => simp [pairsOf, akeys] at h
  | cons ue d ih =>
    simp only [pairsOf, List.map_cons, List.flatten_cons, akeys, List.map_append,
      List.mem_append] at h
    rcases h with h | h
    · simp only [List.map_map, List.mem_map] at h
      obtain ⟨me, _, hme⟩ := h
      have : u = ue.1 := (congrArg Prod.fst hme).symm
      simp [akeys, this]
    · exact List.mem_cons_of_mem _ (ih h)

theorem fst_of_mem_akeys_pairsOf {a : String × String} {d : PyDict (PyDict α)}
    (h : a ∈ akeys (pairsOf d)) : a.1 ∈ akeys d :=
  fst_mem_of_mem_akeys_pairsOf (u := a.1) (m := a.2) (by simpa using h)

theorem aget_pairsOf (u m : String) {d : PyDict (PyDict α)}
    (h : (akeys d).Nodup) :
    aget (u, m) (pairsOf d) = lookup2 d u m := by
  induction d with
  | nil => simp [pairsOf, aget, lookup2]
  | cons ue d ih =>
    simp only [akeys, List.map_cons, List.nodup_cons] at h
    rw [show pairsOf (ue :: d) = ue.2.map (fun me => ((ue.1, me.1), me.2)) ++ pairsOf d from rfl]
    rw [aget_append]
    by_cases hu : ue.1 = u
    · subst hu
      rw [aget_pairsOf_map]
      have hnone : aget (ue.1, m) (pairsOf d) = none := by
        rw [aget_eq_none_iff]
        intro hmem
        exact h.1 (fst_mem_of_mem_akeys_pairsOf hmem)
      rw [hnone]
      have hl : lookup2 (ue :: d) ue.1 m = aget m ue.2 := by
        unfold lookup2
        simp [aget]
      rw [hl]
      cases aget m ue.2 <;> rfl
    · have hnone : aget (u, m) (ue.2.map (fun me => ((ue.1, me.1), me.2))) = none := by
        rw [aget_eq_none_iff]
        simp only [akeys, List.map_map, List.mem_map]
        rintro ⟨me, _, hme⟩
        exact hu (congrArg Prod.fst hme)
      rw [oElse_none hnone, ih h.2]
      have hl : lookup2 (ue :: d) u m = lookup2 d u m := by
        unfold lookup2
        simp [aget, hu]
      rw [hl]

theorem nodup_akeys_pairsOf {d : PyDict (PyDict α)} (h : wfState d) :
    (akeys (pairsOf d)).Nodup := by
  obtain ⟨h1, h2⟩ := h
  induction d with
  | nil => simp [pairsOf, akeys]
  | cons ue d ih =>
    simp only [akeys, List.map_cons, List.nodup_cons] at h1
    rw [show pairsOf (ue :: d) = ue.2.map (fun me => ((ue.1, me.1), me.2)) ++ pairsOf d from rfl]
    rw [show akeys (ue.2.map (fun me => ((ue.1, me.1), me.2)) ++ pairsOf d) =
        akeys (ue.2.map (fun me => ((ue.1, me.1), me.2))) ++ akeys (pairsOf d) from
      List.map_append _ _ _]
    rw [List.nodup_append]
    refine ⟨?_, ?_, ?_⟩
    · have hinner : (akeys ue.2).Nodup := h2 ue (by simp)
      have heq : akeys (ue.2.map (fun me => ((ue.1, me.1), me.2))) =
          (akeys ue.2).map (fun m => (ue.1, m)) := by
        simp [akeys, List.map_map]
      rw [heq]
      refine List.Nodup.map ?_ hinner
      intro a b hab
      exact ((Prod.mk.injEq _ _ _ _).mp hab).2
    · exact ih h1.2 (fun p hp => h2 p (List.mem_cons_of_mem _ hp))
    · intro a ha hb
      have hu2 : a.1 ∈ akeys d := fst_of_mem_akeys_pairsOf hb
      simp only [akeys, List.map_map, List.mem_map] at ha
      obtain ⟨me, _, hme⟩ := ha
      have hu : a.1 = ue.1 := by
        rw [← hme]
        rfl
      exact h1.1 (hu ▸ hu2)

theorem lookup2_loadStep_self (d : PyDict (PyDict α)) (row : (String × String) × α) :
    lookup2 (aset row.1.1 (aset row.1.2 row.2 ((aget row.1.1 d).getD [])) d)
      row.1.1 row.1.2 = some row.2 := by
  unfold lookup2
  rw [aget_aset_self]
  show aget row.1.2 (aset row.1.2 row.2 ((aget row.1.1 d).getD [])) = some row.2
  rw [aget_aset_self]

theorem lookup2_loadStep_ne (d : PyDict (PyDict α)) (row : (String × String) × α)
    {u m : String} (h : (u, m) ≠ row.1) :
    lookup2 (aset row.1.1 (aset row.1.2 row.2 ((aget row.1.1 d).getD [])) d) u m =
      lookup2 d u m := by
  by_cases hu : row.1.1 = u
  · have hm : row.1.2 ≠ m := by
      intro hm
      exact h (Prod.ext hu.symm hm.symm)
    subst hu
    unfold lookup2
    rw [aget_aset_self]
    show aget m (aset row.1.2 row.2 ((aget row.1.1 d).getD [])) = _
    rw [aget_aset_ne hm, ← lookup2_eq_aget_getD]
    rfl
  · unfold lookup2
    rw [aget_aset_ne hu]

theorem lookup2_loadFold (t : SqlTable α) (d : PyDict (PyDict α)) (u m : String)
    (h : (akeys t).Nodup) :
    lookup2 (t.foldl (fun d (row : (String × String) × α) =>
        aset row.1.1 (aset row.1.2 row.2 ((aget row.1.1 d).getD [])) d) d) u m =
      oElse (aget (u, m) t) (lookup2 d u m) := by
  induction t generalizing d with
  | nil => simp [aget, oElse]
  | cons row t ih =>
    have hn : (akeys t).Nodup := by
      simp only [akeys, List.map_cons, List.nodup_cons] at h
      exact h.2
    rw [List.foldl_cons, ih _ hn]
    by_cases hk : (u, m) = row.1
    · have h0 : aget (u, m) t = none := by
        rw [aget_eq_none_iff, hk]
        simp only [akeys, List.map_cons, List.nodup_cons] at h
        exact h.1
      rw [oElse_none h0]
      have h1 : aget (u, m) (row :: t) = some row.2 := by
        simp [aget, hk.symm]
      rw [oElse_some h1]
      have hu : row.1.1 = u := congrArg Prod.fst hk.symm
      have hm : row.1.2 = m := congrArg Prod.snd hk.symm
      rw [← hu, ← hm]
      exact lookup2_loadStep_self d row
    · have h1 : aget (u, m) (row :: t) = aget (u, m) t := by
        obtain ⟨rk, rv⟩ := row
        simp only [aget]
        rw [if_neg (fun hh : rk = (u, m) => hk hh.symm)]
      rw [h1, lookup2_loadStep_ne d row hk]

theorem isSome_aget_loadFold (t : SqlTable α) (d : PyDict (PyDict α)) (u : String) :
    (aget u (t.foldl (fun d (row : (String × String) × α) =>
        aset row.1.1 (aset row.1.2 row.2 ((aget row.1.1 d).getD [])) d) d)).isSome ↔
      (aget u d).isSome ∨ u ∈ t.map (fun r => r.1.1) := by
  induction t generalizing d with
  | nil => simp
  | cons row t ih =>
    rw [List.foldl_cons, ih]
    have hstep : (aget u (aset row.1.1 (aset row.1.2 row.2 ((aget row.1.1 d).getD [])) d)).isSome
        ↔ u = row.1.1 ∨ (aget u d).isSome := by
      by_cases hu : row.1.1 = u
      · subst hu
        rw [aget_aset_self]
        simp
      · rw [aget_aset_ne hu]
        constructor
        · exact Or.inr
        · rintro (hh | hh)
          · exact absurd hh.symm hu
          · exact hh
    rw [hstep]
    simp only [List.map_cons, List.mem_cons]
    tauto

/-- Claim C1 (amended): the save-then-load round trip on a fresh store
instance returns the original state for `DiskStorage` unconditionally; for
`SQLiteStorage` it holds when the previously persisted rows are all
overwritten by the saved state (their `(user_id, memory_id)` keys occur in
it) and no user of the saved state has an empty memory set — `save` only
upserts rows, so other stale rows and dropped empty users make the loaded
state differ. -/
theorem save_load_roundtrip {α : Type} :
    (∀ (S : PyDict (PyDict α)) (file : Option (PyDict (PyDict α))),
        stateEqv (diskLoad (diskSave S file)) S)
    ∧
    (∀ (S : PyDict (PyDict α)) (t : SqlTable α),
        wfState S →
        (akeys t).Nodup →
        (∀ row ∈ t, (lookup2 S row.1.1 row.1.2).isSome) →
        (∀ p ∈ S, p.2 ≠ []) →
        stateEqv (sqliteLoad (sqliteSave S t)) S) := by
  constructor
  · intro S file
    exact stateEqv_refl S
  · intro S t hwf hnd hsub hne
    have hsave : sqliteSave S t =
        (pairsOf S).foldl (fun acc rm => aset rm.1 rm.2 acc) t := sqliteSave_eq_foldl S t
    have hndsave : (akeys (sqliteSave S t)).Nodup := by
      rw [hsave]
      exact nodup_akeys_foldl_aset _ hnd
    have hpair : ∀ u m, aget (u, m) (sqliteSave S t) =
        oElse (lookup2 S u m) (aget (u, m) t) := by
      intro u m
      rw [hsave, aget_foldl_aset _ _ _ (nodup_akeys_pairsOf hwf),
        aget_pairsOf u m hwf.1]
    have hmain : ∀ u m, lookup2 (sqliteLoad (sqliteSave S t)) u m = lookup2 S u m := by
      intro u m
      have hload : lookup2 (sqliteLoad (sqliteSave S t)) u m =
          oElse (aget (u, m) (sqliteSave S t)) (lookup2 [] u m) :=
        lookup2_loadFold _ [] u m hndsave
      rw [hload, hpair u m]
      cases hS : lookup2 S u m with
      | some v => rfl
      | none =>
        cases ht : aget (u, m) t with
        | none => rfl
        | some v =>
          exfalso
          have hrow : ((u, m), v) ∈ t := aget_mem ht
          have := hsub _ hrow
          rw [hS] at this
          simp at this
    refine ⟨?_, hmain⟩
    intro u
    have hiff : (aget u (sqliteLoad (sqliteSave S t))).isSome ↔
        u ∈ (sqliteSave S t).map (fun r => r.1.1) := by
      have := isSome_aget_loadFold (sqliteSave S t) [] u
      simpa [aget] using this
    have hback : (aget u S).isSome → (aget u (sqliteLoad (sqliteSave S t))).isSome := by
      intro hs
      cases hS : aget u S with
      | none => rw [hS] at hs; simp at hs
      | some um =>
        have hmem : (u, um) ∈ S := aget_mem hS
        cases hum : um with
        | nil => exact absurd hum (hne _ hmem)
        | cons me rest =>
          have hl : lookup2 S u me.1 = some me.2 := by
            unfold lookup2
            rw [hS, hum]
            simp [aget]
          have := hmain u me.1
          rw [hl] at this
          exact isSome_of_bind_isSome (this ▸ (by simp : (some me.2).isSome = true))
    have hfwd : (aget u (sqliteLoad (sqliteSave S t))).isSome → (aget u S).isSome := by
      intro hl
      rw [hiff] at hl
      obtain ⟨row, hrow, hru⟩ := List.mem_map.mp hl
      have hkey : row.1 ∈ akeys (sqliteSave S t) := by
        simp only [akeys, List.mem_map]
        exact ⟨row, hrow, rfl⟩
      rw [hsave, mem_akeys_foldl_aset] at hkey
      rcases hkey with hkey | hkey
      · have : row.1.1 ∈ akeys S := fst_of_mem_akeys_pairsOf hkey
        rw [hru] at this
        rwa [isSome_aget_iff]
      · obtain ⟨row', hrow', hr'⟩ := List.mem_map.mp hkey
        have := hsub _ hrow'
        have hbind : (aget row'.1.1 S).isSome := isSome_of_bind_isSome this
        have heq : row'.1.1 = u := by
          rw [show row'.1 = row.1 from hr', hru]
        rwa [heq] at hbind
    cases h1 : (aget u (sqliteLoad (sqliteSave S t))).isSome with
    | true =>
      have := hfwd (by rw [h1])
      rw [this]
    | false =>
      cases h2 : (aget u S).isSome with
      | true =>
        have := hback (by rw [h2])
        rw [this] at h1
        exact h1.symm ▸ rfl
      | false => rfl

/-- Witness: the round trip at a concrete one-user state, with a prior
SQLite row that the save overwrites. -/
theorem save_load_roundtrip_witness :
    stateEqv (diskLoad (diskSave [("u1", [("m1", (5 : ℕ))])] none)) [("u1", [("m1", 5)])] ∧
    stateEqv (sqliteLoad (sqliteSave [("u1", [("m1", (5 : ℕ))])] [(("u1", "m1"), 7)]))
      [("u1", [("m1", 5)])] :=
  ⟨save_load_roundtrip.1 _ none,
   save_load_roundtrip.2 [("u1", [("m1", 5)])] [(("u1", "m1"), 7)]
     (by decide) (by decide) (by decide) (by decide)⟩

/-- Counterexample to claim C1 as stated: a stale SQLite row survives
`save` of the empty state, so `load` on the fresh instance does not return
the saved state. -/
theorem save_load_roundtrip_counterexample :
    ¬ stateEqv (sqliteLoad (sqliteSave ([] : PyDict (PyDict ℕ)) [(("u1", "m1"), 7)])) [] :=
  fun h => absurd (h.1 "u1") (by decide)

/-! ### Claims C6, C9, C10: update errors, user-entry frame, metadata copy -/

/-- Membership in an updated keyed list comes from the new entry or the old
list. -/
theorem mem_aset [DecidableEq κ] {p : κ × α} {k : κ} {v : α} {l : List (κ × α)}
    (h : p ∈ aset k v l) : p = (k, v) ∨ p ∈ l := by
  induction l with
  | nil => simpa [aset] using h
  | cons hd t ih =>
    by_cases hk : hd.1 = k
    · rw [aset, if_pos hk] at h
      rcases List.mem_cons.mp h with h | h
      · exact Or.inl h
      · exact Or.inr (List.mem_cons_of_mem _ h)
    · rw [aset, if_neg hk] at h
      rcases List.mem_cons.mp h with h | h
      · exact Or.inr (h ▸ List.mem_cons_self _ _)
      · rcases ih h with h | h
        · exact Or.inl h
        · exact Or.inr (List.mem_cons_of_mem _ h)

/-- Claim C6: `update` fails with NotFound (`ValueError("Memory not found")`)
exactly when the `(user_id, memory_id)` pair is absent — in particular when
the id exists only under a different user —, the failing call leaves the
state untouched, and a successful call returns the
`{id, event: "update", data}` summary. -/
theorem update_notfound_characterisation (s : RedCache) (memory_id data user_id : String) :
    ((s.update memory_id data user_id).1 = Except.error "Memory not found" ↔
      lookup2 s.user_memories user_id memory_id = none)
    ∧ (lookup2 s.user_memories user_id memory_id = none →
        (s.update memory_id data user_id).2 = s)
    ∧ (∀ mem, lookup2 s.user_memories user_id memory_id = some mem →
        (s.update memory_id data user_id).1 = Except.ok ⟨memory_id, "update", data⟩) := by
  cases h : lookup2 s.user_memories user_id memory_id with
  | none =>
    refine ⟨?_, ?_, ?_⟩
    · simp [RedCache.update, h]
    · intro _
      simp [RedCache.update, h]
    · intro mem hmem
      exact Option.noConfusion hmem
  | some mem =>
    refine ⟨?_, ?_, ?_⟩
    · simp [RedCache.update, h]
    · intro h0
      exact Option.noConfusion h0
    · intro mem' hmem
      simp [RedCache.update, h]

/-- A two-user store used by witnesses: `u1` owns memory `m1`. -/
noncomputable def crossUserCache : RedCache :=
  ⟨[("u1", [("m1", ⟨"m1", "hi", ⟨"hi", "general"⟩, [1]⟩)])],
    [("m1", [1])], [("m1", [("m1", 1)])], 100, ["hi"], fun _ => 0, none,
    [("u1", [("m1", ⟨"m1", "hi", ⟨"hi", "general"⟩, [1]⟩)])]⟩

/-- Witness: updating `m1` as user `u2` fails with NotFound even though
`m1` exists under `u1`, and the state is unchanged. -/
theorem update_notfound_witness :
    (crossUserCache.update "m1" "new" "u2").1 = Except.error "Memory not found"
    ∧ (crossUserCache.update "m1" "new" "u2").2 = crossUserCache :=
  ⟨((update_notfound_characterisation crossUserCache "m1" "new" "u2").1).mpr rfl,
   (update_notfound_characterisation crossUserCache "m1" "new" "u2").2.1 rfl⟩

theorem isSome_lookup2_aget {d : PyDict (PyDict α)} {u k : String}
    (h : (lookup2 d u k).isSome) : (aget u d).isSome :=
  isSome_of_bind_isSome h

theorem delete_user_memories_of_present {s : RedCache} {memory_id user_id : String}
    (h : (lookup2 s.user_memories user_id memory_id).isSome) :
    (s.delete memory_id user_id).user_memories =
      aset user_id (adel memory_id ((aget user_id s.user_memories).getD []))
        s.user_memories := by
  simp [RedCache.delete, h]

theorem delete_saved_of_present {s : RedCache} {memory_id user_id : String}
    (h : (lookup2 s.user_memories user_id memory_id).isSome) :
    (s.delete memory_id user_id).saved = (s.delete memory_id user_id).user_memories := by
  simp [RedCache.delete, h]

theorem delete_of_absent {s : RedCache} {memory_id user_id : String}
    (h : ¬(lookup2 s.user_memories user_id memory_id).isSome) :
    s.delete memory_id user_id = s := by
  simp [RedCache.delete, h]

theorem akeys_delete_user_memories (s : RedCache) (memory_id user_id : String) :
    akeys (s.delete memory_id user_id).user_memories = akeys s.user_memories := by
  by_cases h : (lookup2 s.user_memories user_id memory_id).isSome
  · rw [delete_user_memories_of_present h]
    exact akeys_aset_mem _ ((isSome_aget_iff _ _).mp (isSome_lookup2_aget h))
  · rw [delete_of_absent h]

theorem akeys_foldl_delete (ids : List String) (s : RedCache) (user_id : String) :
    akeys ((ids.foldl (fun st mid => st.delete mid user_id) s).user_memories) =
      akeys s.user_memories := by
  induction ids generalizing s with
  | nil => rfl
  | cons i ids ih =>
    rw [List.foldl_cons, ih, akeys_delete_user_memories]

/-- Claim C9: `delete` never removes a user's entry from the user map, even
when it deletes that user's last memory — the user stays present, mapped to
the pruned (possibly empty) memory dict, and exactly that user map is
persisted; only `delete_all` removes the user-level entry. -/
theorem delete_keeps_user_entry :
    (∀ (s : RedCache) (memory_id user_id : String),
        akeys (s.delete memory_id user_id).user_memories = akeys s.user_memories)
    ∧ (∀ (s : RedCache) (memory_id user_id : String) (um : PyDict Memory),
        aget user_id s.user_memories = some um →
        (aget memory_id um).isSome →
        aget user_id (s.delete memory_id user_id).user_memories = some (adel memory_id um)
        ∧ (s.delete memory_id user_id).saved = (s.delete memory_id user_id).user_memories)
    ∧ (∀ (s : RedCache) (user_id : String),
        (akeys s.user_memories).Nodup →
        aget user_id (s.delete_all user_id).user_memories = none) := by
  refine ⟨akeys_delete_user_memories, ?_, ?_⟩
  · intro s memory_id user_id um hu hm
    have hp : (lookup2 s.user_memories user_id memory_id).isSome := by
      unfold lookup2
      rw [hu]
      exact hm
    constructor
    · rw [delete_user_memories_of_present hp, hu]
      exact aget_aset_self _ _ _
    · exact delete_saved_of_present hp
  · intro s user_id hnd
    by_cases h : (aget user_id s.user_memories).isSome
    · have : (s.delete_all user_id).user_memories =
          adel user_id ((((akeys ((aget user_id s.user_memories).getD [])).foldl
            (fun st mid => st.delete mid user_id) s)).user_memories) := by
        simp [RedCache.delete_all, h]
      rw [this]
      apply aget_adel_self
      rw [akeys_foldl_delete]
      exact hnd
    · have hd : s.delete_all user_id = s := by
        simp [RedCache.delete_all, h]
      rw [hd, ← Option.not_isSome_iff_eq_none]
      simpa using h

/-- Witness: deleting `u1`'s only memory keeps `u1` in the user map with an
empty dict (and persists it), while `delete_all` removes the entry. -/
theorem delete_keeps_user_entry_witness :
    (aget "u1" (crossUserCache.delete "m1" "u1").user_memories =
      some (adel "m1" [("m1", ⟨"m1", "hi", ⟨"hi", "general"⟩, [1]⟩)])
      ∧ (crossUserCache.delete "m1" "u1").saved =
        (crossUserCache.delete "m1" "u1").user_memories)
    ∧ aget "u1" (crossUserCache.delete_all "u1").user_memories = none :=
  ⟨delete_keeps_user_entry.2.1 crossUserCache "m1" "u1"
      [("m1", ⟨"m1", "hi", ⟨"hi", "general"⟩, [1]⟩)] rfl rfl,
   delete_keeps_user_entry.2.2 crossUserCache "u1" (by decide)⟩

theorem add_user_memories (s : RedCache) (text user_id category newId : String) :
    (s.add text user_id category newId).2.user_memories =
      aset user_id
        (aset newId ⟨newId, text, ⟨text, category⟩, (vectorizeText s text).1⟩
          ((aget user_id (if (aget user_id s.user_memories).isSome then s.user_memories
                          else aset user_id [] s.user_memories)).getD []))
        (if (aget user_id s.user_memories).isSome then s.user_memories
         else aset user_id [] s.user_memories) := rfl

theorem add_vector_data (s : RedCache) (text user_id category newId : String) :
    (s.add text user_id category newId).2.vector_data =
      aset newId (vectorizeText s text).1 s.vector_data := rfl

theorem add_saved (s : RedCache) (text user_id category newId : String) :
    (s.add text user_id category newId).2.saved =
      (s.add text user_id category newId).2.user_memories := rfl

theorem add_vocabulary (s : RedCache) (text user_id category newId : String) :
    (s.add text user_id category newId).2.vocabulary =
      vocabUnion s.vocabulary (tokenize text) := rfl

theorem add_summary (s : RedCache) (text user_id category newId : String) :
    (s.add text user_id category newId).1 = [⟨newId, "add", text⟩] := rfl

theorem update_state_of_some {s : RedCache} {memory_id data user_id : String} {mem : Memory}
    (h : lookup2 s.user_memories user_id memory_id = some mem) :
    (s.update memory_id data user_id).2 =
      (let new_vector := (vectorizeText s data).1
       let s1 := (vectorizeText s data).2
       let memory1 : Memory :=
         { mem with text := data,
                    metadata := { mem.metadata with data := data },
                    vector := new_vector }
       let um1 := aset user_id (aset memory_id memory1 ((aget user_id s1.user_memories).getD []))
                    s1.user_memories
       let s2 := { s1 with user_memories := um1,
                           vector_data := aset memory_id new_vector s1.vector_data }
       let s3 := updateIndex s2 memory_id new_vector
       { s3 with saved := s3.user_memories }) := by
  unfold RedCache.update
  rw [h]

/-- The metadata-copy invariant of claim C10: every stored record's
`metadata.data` equals its `text`. -/
def metaOK (d : PyDict (PyDict Memory)) : Prop :=
  ∀ ue ∈ d, ∀ me ∈ ue.2, me.2.metadata.data = me.2.text

instance (d : PyDict (PyDict Memory)) : Decidable (metaOK d) := by
  unfold metaOK; infer_instance

theorem metaOK_aset_user {d : PyDict (PyDict Memory)} {u : String} {um : PyDict Memory}
    (hd : metaOK d) (hum : ∀ me ∈ um, me.2.metadata.data = me.2.text) :
    metaOK (aset u um d) := by
  intro ue hue
  rcases mem_aset hue with h | h
  · intro me hme
    rw [h] at hme
    exact hum me hme
  · exact hd ue h

theorem metaOK_inner_of_aget {d : PyDict (PyDict Memory)} {u : String} {um : PyDict Memory}
    (hd : metaOK d) (h : aget u d = some um) :
    ∀ me ∈ um, me.2.metadata.data = me.2.text :=
  hd (u, um) (aget_mem h)

/-- Claim C10: every record stores its text twice — `metadata.data` always
equals `text`, the category lives inside `metadata` —, the record created
by `add` is exactly `{id, text, metadata: {data: text, category}, vector}`,
and both `add` and `update` (which rewrites both copies) preserve the
equality. -/
theorem metadata_duplicates_text :
    (∀ (s : RedCache) (text user_id category newId : String),
        metaOK s.user_memories →
        metaOK (s.add text user_id category newId).2.user_memories)
    ∧ (∀ (s : RedCache) (memory_id data user_id : String),
        metaOK s.user_memories →
        metaOK (s.update memory_id data user_id).2.user_memories)
    ∧ (∀ (s : RedCache) (text user_id category newId : String),
        lookup2 (s.add text user_id category newId).2.user_memories user_id newId =
          some ⟨newId, text, ⟨text, category⟩, (vectorizeText s text).1⟩) := by
  refine ⟨?_, ?_, ?_⟩
  · intro s text user_id category newId h
    rw [add_user_memories]
    by_cases hu : (aget user_id s.user_memories).isSome
    · simp only [if_pos hu]
      refine metaOK_aset_user h ?_
      intro me hme
      rcases mem_aset hme with hh | hh
      · rw [hh]
      · cases hg : aget user_id s.user_memories with
        | none => rw [hg] at hh; simp at hh
        | some um =>
          rw [hg] at hh
          exact metaOK_inner_of_aget h hg me hh
    · simp only [if_neg hu]
      have hempty : metaOK (aset user_id [] s.user_memories) :=
        metaOK_aset_user h (by intro me hme; simp at hme)
      refine metaOK_aset_user hempty ?_
      intro me hme
      rcases mem_aset hme with hh | hh
      · rw [hh]
      · rw [aget_aset_self] at hh
        simp at hh
  · intro s memory_id data user_id h
    cases hl : lookup2 s.user_memories user_id memory_id with
    | none =>
      have : (s.update memory_id data user_id).2 = s := by
        unfold RedCache.update
        rw [hl]
      rw [this]
      exact h
    | some mem =>
      rw [update_state_of_some hl]
      show metaOK (aset user_id (aset memory_id _ ((aget user_id s.user_memories).getD []))
        s.user_memories)
      refine metaOK_aset_user h ?_
      intro me hme
      rcases mem_aset hme with hh | hh
      · rw [hh]
      · cases hg : aget user_id s.user_memories with
        | none => rw [hg] at hh; simp at hh
        | some um =>
          rw [hg] at hh
          exact metaOK_inner_of_aget h hg me hh
  · intro s text user_id category newId
    rw [show lookup2 (s.add text user_id category newId).2.user_memories user_id newId =
        (aget user_id (s.add text user_id category newId).2.user_memories).bind (aget newId)
      from rfl]
    rw [add_user_memories, aget_aset_self]
    show aget newId (aset newId _ _) = _
    rw [aget_aset_self]

/-- Witness: the record created by a concrete `add` carries
`metadata = {data: text, category}`, and `metaOK` is preserved. -/
theorem metadata_duplicates_text_witness :
    metaOK (crossUserCache.add "new text" "u1" "cat" "m2").2.user_memories ∧
    lookup2 (crossUserCache.add "new text" "u1" "cat" "m2").2.user_memories "u1" "m2" =
      some ⟨"m2", "new text", ⟨"new text", "cat"⟩, (vectorizeText crossUserCache "new text").1⟩ :=
  ⟨metadata_duplicates_text.1 crossUserCache "new text" "u1" "cat" "m2" (by decide),
   metadata_duplicates_text.2.2 crossUserCache "new text" "u1" "cat" "m2"⟩

/-! ### Claim C7: the vocabulary only ever grows -/

theorem mem_vocabAdd {tok : String} {voc : List String} (t : String)
    (h : tok ∈ voc) : tok ∈ vocabAdd voc t := by
  unfold vocabAdd
  by_cases ht : t ∈ voc
  · rwa [if_pos ht]
  · rw [if_neg ht]
    exact List.mem_append_left _ h

theorem mem_vocabUnion {tok : String} {voc : List String} (ts : List String)
    (h : tok ∈ voc) : tok ∈ vocabUnion voc ts := by
  induction ts generalizing voc with
  | nil => exact h
  | cons t ts ih => exact ih (mem_vocabAdd t h)

theorem delete_vocabulary (s : RedCache) (memory_id user_id : String) :
    (s.delete memory_id user_id).vocabulary = s.vocabulary := by
  by_cases h : (lookup2 s.user_memories user_id memory_id).isSome
  · simp [RedCache.delete, h]
  · rw [delete_of_absent h]

theorem vocab_foldl_delete (ids : List String) (s : RedCache) (user_id : String) :
    ((ids.foldl (fun st mid => st.delete mid user_id) s)).vocabulary = s.vocabulary := by
  induction ids generalizing s with
  | nil => rfl
  | cons i ids ih => rw [List.foldl_cons, ih, delete_vocabulary]

/-- Claim C7: every token in the vocabulary survives every operation —
`add`, `update` and `search` only extend it, while `delete`, `delete_all`
and `reset` leave it untouched (even though `reset` clears all users, all
vectors, the whole index and persists the empty state). -/
theorem vocabulary_only_grows :
    (∀ (s : RedCache) (text user_id category newId tok : String),
        tok ∈ s.vocabulary → tok ∈ (s.add text user_id category newId).2.vocabulary)
    ∧ (∀ (s : RedCache) (memory_id data user_id tok : String),
        tok ∈ s.vocabulary → tok ∈ (s.update memory_id data user_id).2.vocabulary)
    ∧ (∀ (s : RedCache) (query user_id : String) (n : Int) (tok : String),
        tok ∈ s.vocabulary → tok ∈ (s.search query user_id n).2.vocabulary)
    ∧ (∀ (s : RedCache) (memory_id user_id : String),
        (s.delete memory_id user_id).vocabulary = s.vocabulary)
    ∧ (∀ (s : RedCache) (user_id : String),
        (s.delete_all user_id).vocabulary = s.vocabulary)
    ∧ (∀ s : RedCache, s.reset.vocabulary = s.vocabulary
        ∧ s.reset.user_memories = [] ∧ s.reset.vector_data = []
        ∧ s.reset.vector_index = [] ∧ s.reset.saved = []) := by
  refine ⟨?_, ?_, ?_, delete_vocabulary, ?_, ?_⟩
  · intro s text user_id category newId tok h
    rw [add_vocabulary]
    exact mem_vocabUnion _ h
  · intro s memory_id data user_id tok h
    cases hl : lookup2 s.user_memories user_id memory_id with
    | none =>
      have hs : (s.update memory_id data user_id).2 = s := by
        unfold RedCache.update
        rw [hl]
      rw [hs]
      exact h
    | some mem =>
      rw [update_state_of_some hl]
      show tok ∈ vocabUnion s.vocabulary (tokenize data)
      exact mem_vocabUnion _ h
  · intro s query user_id n tok h
    show tok ∈ vocabUnion s.vocabulary (tokenize query)
    exact mem_vocabUnion _ h
  · intro s user_id
    by_cases h : (aget user_id s.user_memories).isSome
    · have : (s.delete_all user_id).vocabulary =
          ((akeys ((aget user_id s.user_memories).getD [])).foldl
            (fun st mid => st.delete mid user_id) s).vocabulary := by
        simp [RedCache.delete_all, h]
      rw [this, vocab_foldl_delete]
    · simp [RedCache.delete_all, h]
  · intro s
    exact ⟨rfl, rfl, rfl, rfl, rfl⟩

/-- Witness: the one-token vocabulary of the sample store survives `add`,
`update`, `search` and `reset`. -/
theorem vocabulary_only_grows_witness :
    "hi" ∈ (crossUserCache.add "x y" "u1" "c" "m9").2.vocabulary
    ∧ "hi" ∈ (crossUserCache.update "m1" "other" "u1").2.vocabulary
    ∧ "hi" ∈ (crossUserCache.search "query" "u1" 5).2.vocabulary
    ∧ (crossUserCache.reset).vocabulary = crossUserCache.vocabulary :=
  ⟨vocabulary_only_grows.1 crossUserCache "x y" "u1" "c" "m9" "hi" (by decide),
   vocabulary_only_grows.2.1 crossUserCache "m1" "other" "u1" "hi" (by decide),
   vocabulary_only_grows.2.2.1 crossUserCache "query" "u1" 5 "hi" (by decide),
   (vocabulary_only_grows.2.2.2.2.2 crossUserCache).1⟩

/-! ### Claim C4: stored vectors have dimension D and unit norm -/

/-- Squared L2 norm of a stored real vector. -/
noncomputable def sumSq (v : List ℝ) : ℝ := (v.map (fun x => x * x)).sum

theorem countP_pos_of_mem {p : String → Bool} {l : List String} {a : String}
    (h : a ∈ l) (hp : p a = true) : 0 < l.countP p := by
  induction l with
  | nil => simp at h
  | cons b l ih =>
    rcases List.mem_cons.mp h with h | h
    · subst h
      simp [List.countP_cons, hp]
    · have := ih h
      rw [List.countP_cons]
      exact Nat.lt_of_lt_of_le this (Nat.le_add_right _ _)

theorem sum_nonneg_q (l : List ℚ) : (∀ y ∈ l, 0 ≤ y) → 0 ≤ l.sum := by
  induction l with
  | nil => intro _; simp
  | cons b l ih =>
    intro hnn
    rw [List.sum_cons]
    exact add_nonneg (hnn b (by simp)) (ih (fun y hy => hnn y (List.mem_cons_of_mem _ hy)))

theorem le_sum_of_mem_q (l : List ℚ) : ∀ a, a ∈ l → (∀ y ∈ l, 0 ≤ y) → a ≤ l.sum := by
  induction l with
  | nil =>
    intro a h _
    simp at h
  | cons b l ih =>
    intro a h hnn
    rw [List.sum_cons]
    rcases List.mem_cons.mp h with h | h
    · subst h
      have h0 : 0 ≤ l.sum := sum_nonneg_q l (fun y hy => hnn y (List.mem_cons_of_mem _ hy))
      linarith
    · have hb := hnn b (by simp)
      have ha := ih a h (fun y hy => hnn y (List.mem_cons_of_mem _ hy))
      linarith

theorem normSq_nonneg (l : List ℚ) : 0 ≤ normSq l := by
  induction l with
  | nil => simp [normSq]
  | cons q l ih =>
    unfold normSq at ih ⊢
    rw [List.map_cons, List.sum_cons]
    exact add_nonneg (mul_self_nonneg q) ih

theorem normSq_pos_of_mem {l : List ℚ} {x : ℚ} (hx : x ∈ l) (hx0 : x ≠ 0) :
    0 < normSq l := by
  have hmem : x * x ∈ l.map (fun y => y * y) := List.mem_map.mpr ⟨x, hx, rfl⟩
  have hpos : 0 < x * x := mul_self_pos.mpr hx0
  have hle : x * x ≤ normSq l :=
    le_sum_of_mem_q _ _ hmem (by
      intro y hy
      obtain ⟨z, _, hz⟩ := List.mem_map.mp hy
      rw [← hz]
      exact mul_self_nonneg z)
  linarith

theorem rawVector_length (h : String → ℕ) (D : ℕ) (voc tokens : List String) :
    (rawVector h D voc tokens).length = D := by
  unfold rawVector
  split <;> simp

theorem normalizeVec_length (raw : List ℚ) : (normalizeVec raw).length = raw.length := by
  unfold normalizeVec
  split <;> simp

theorem rawVector_nil (h : String → ℕ) (D : ℕ) (voc : List String) :
    rawVector h D voc [] = List.replicate D 0 := by
  unfold rawVector
  split
  · rw [← List.ofFn_const D (0 : ℚ)]
    apply congrArg
    funext i
    split <;> simp
  · rw [← List.ofFn_const D (0 : ℚ)]
    apply congrArg
    funext i
    simp

theorem normSq_replicate_zero (D : ℕ) : normSq (List.replicate D 0) = 0 := by
  simp [normSq]

theorem normalizeVec_replicate_zero (D : ℕ) :
    normalizeVec (List.replicate D 0) = List.replicate D 0 := by
  unfold normalizeVec
  rw [if_pos (normSq_replicate_zero D)]
  simp

theorem self_mem_vocabAdd (voc : List String) (t : String) : t ∈ vocabAdd voc t := by
  unfold vocabAdd
  by_cases ht : t ∈ voc
  · rwa [if_pos ht]
  · rw [if_neg ht]
    simp

theorem mem_vocabUnion_of_mem_tokens {t : String} {ts : List String} (voc : List String)
    (h : t ∈ ts) : t ∈ vocabUnion voc ts := by
  induction ts generalizing voc with
  | nil => simp at h
  | cons t' ts ih =>
    rcases List.mem_cons.mp h with h | h
    · subst h
      exact mem_vocabUnion ts (self_mem_vocabAdd voc t)
    · exact ih _ h

theorem sumSq_map_div {c : ℝ} (hc : c ≠ 0) (l : List ℚ) :
    sumSq (l.map (fun q : ℚ => (q : ℝ) / c)) = ((normSq l : ℚ) : ℝ) / (c * c) := by
  induction l with
  | nil => simp [sumSq, normSq]
  | cons q l ih =>
    unfold sumSq normSq at ih ⊢
    rw [List.map_cons, List.map_cons, List.sum_cons, List.map_cons, List.sum_cons, ih]
    push_cast
    field_simp
    try ring

theorem sumSq_normalizeVec {raw : List ℚ} (h : normSq raw ≠ 0) :
    sumSq (normalizeVec raw) = 1 := by
  have hpos : (0 : ℚ) < normSq raw := lt_of_le_of_ne (normSq_nonneg raw) (Ne.symm h)
  have hcast : (0 : ℝ) < ((normSq raw : ℚ) : ℝ) := by exact_mod_cast hpos
  have hsqrt : Real.sqrt ((normSq raw : ℚ) : ℝ) ≠ 0 :=
    ne_of_gt (Real.sqrt_pos.mpr hcast)
  unfold normalizeVec
  rw [if_neg h, sumSq_map_div hsqrt, Real.mul_self_sqrt (le_of_lt hcast)]
  exact div_self (ne_of_gt hcast)

theorem sumSq_replicate_zero (D : ℕ) : sumSq (List.replicate D (0 : ℝ)) = 0 := by
  simp [sumSq]

theorem normSq_rawVector_pos {s : RedCache} {text : String}
    (hD : 0 < s.vector_size) (hne : tokenize text ≠ []) :
    0 < normSq (rawVector s.strHash s.vector_size
      (vocabUnion s.vocabulary (tokenize text)) (tokenize text)) := by
  obtain ⟨t0, ht0⟩ := List.exists_mem_of_ne_nil _ hne
  set voc := vocabUnion s.vocabulary (tokenize text) with hvoc
  unfold rawVector
  split
  · rename_i hsmall
    have htv : t0 ∈ voc := mem_vocabUnion_of_mem_tokens _ ht0
    obtain ⟨i, hi, hgi⟩ := List.mem_iff_getElem.mp htv
    have hiD : i < s.vector_size := lt_trans hi hsmall
    set f := fun j : Fin s.vector_size =>
      if hj : j.1 < voc.length then
        (((tokenize text).countP (fun t => t == voc.get ⟨j.1, hj⟩) : ℕ) : ℚ)
      else 0 with hf
    have hmem : f ⟨i, hiD⟩ ∈ List.ofFn f := (List.mem_ofFn f _).mpr ⟨⟨i, hiD⟩, rfl⟩
    refine normSq_pos_of_mem hmem ?_
    rw [hf]
    simp only [dif_pos hi]
    have hget : voc.get ⟨i, hi⟩ = t0 := hgi
    rw [hget]
    have hcount : 0 < (tokenize text).countP (fun t => t == t0) :=
      countP_pos_of_mem ht0 (by simp)
    exact_mod_cast Nat.pos_iff_ne_zero.mp hcount
  · set b := s.strHash t0 % s.vector_size with hb
    have hbD : b < s.vector_size := Nat.mod_lt _ hD
    set f := fun j : Fin s.vector_size =>
      (((tokenize text).countP (fun t => s.strHash t % s.vector_size == j.1) : ℕ) : ℚ) with hf
    have hmem : f ⟨b, hbD⟩ ∈ List.ofFn f := (List.mem_ofFn f _).mpr ⟨⟨b, hbD⟩, rfl⟩
    refine normSq_pos_of_mem hmem ?_
    show (((tokenize text).countP
      (fun t => s.strHash t % s.vector_size == b) : ℕ) : ℚ) ≠ 0
    have hcount : 0 < (tokenize text).countP (fun t => s.strHash t % s.vector_size == b) :=
      countP_pos_of_mem ht0 (by simp [hb])
    exact_mod_cast Nat.pos_iff_ne_zero.mp hcount

theorem vectorizeText_spec (s : RedCache) (text : String) (hD : 0 < s.vector_size) :
    (vectorizeText s text).1.length = s.vector_size
    ∧ (tokenize text = [] → (vectorizeText s text).1 = List.replicate s.vector_size 0)
    ∧ (tokenize text ≠ [] → sumSq (vectorizeText s text).1 = 1
        ∧ (vectorizeText s text).1 ≠ List.replicate s.vector_size 0) := by
  have hfst : (vectorizeText s text).1 =
      normalizeVec (rawVector s.strHash s.vector_size
        (vocabUnion s.vocabulary (tokenize text)) (tokenize text)) := rfl
  refine ⟨?_, ?_, ?_⟩
  · rw [hfst, normalizeVec_length, rawVector_length]
  · intro hnil
    rw [hfst, hnil, rawVector_nil, normalizeVec_replicate_zero]
  · intro hne
    have hpos := normSq_rawVector_pos hD hne
    have hunit : sumSq (vectorizeText s text).1 = 1 := by
      rw [hfst]
      exact sumSq_normalizeVec (ne_of_gt hpos)
    refine ⟨hunit, ?_⟩
    intro hrep
    rw [hrep, sumSq_replicate_zero] at hunit
    exact one_ne_zero hunit.symm

theorem lookup2_add_self (s : RedCache) (text user_id category newId : String) :
    lookup2 (s.add text user_id category newId).2.user_memories user_id newId =
      some ⟨newId, text, ⟨text, category⟩, (vectorizeText s text).1⟩ := by
  rw [show lookup2 (s.add text user_id category newId).2.user_memories user_id newId =
      (aget user_id (s.add text user_id category newId).2.user_memories).bind (aget newId)
    from rfl]
  rw [add_user_memories, aget_aset_self]
  show aget newId (aset newId _ _) = _
  rw [aget_aset_self]

theorem lookup2_update_self {s : RedCache} {memory_id user_id : String} {mem0 : Memory}
    (h : lookup2 s.user_memories user_id memory_id = some mem0) (data : String) :
    lookup2 (s.update memory_id data user_id).2.user_memories user_id memory_id =
      some { mem0 with text := data,
                       metadata := { mem0.metadata with data := data },
                       vector := (vectorizeText s data).1 } := by
  rw [update_state_of_some h]
  show lookup2 (aset user_id (aset memory_id _ ((aget user_id s.user_memories).getD []))
    s.user_memories) user_id memory_id = _
  unfold lookup2
  rw [aget_aset_self]
  show aget memory_id (aset memory_id _ _) = _
  rw [aget_aset_self]

/-- Claim C4: every vector stored in a Memory record by `add` or by a
successful `update` has exactly `vector_size` components (default 100) and
squared L2 norm 1 — except that it is exactly the zero vector if and only
if the normalised text has no tokens. -/
theorem stored_vectors_unit_norm (s : RedCache) (hD : 0 < s.vector_size) :
    (∀ text user_id category newId : String, ∃ mem : Memory,
        lookup2 (s.add text user_id category newId).2.user_memories user_id newId = some mem
        ∧ mem.vector.length = s.vector_size
        ∧ (tokenize text = [] → mem.vector = List.replicate s.vector_size 0)
        ∧ (tokenize text ≠ [] → sumSq mem.vector = 1
            ∧ mem.vector ≠ List.replicate s.vector_size 0))
    ∧ (∀ memory_id data user_id : String, ∀ mem0 : Memory,
        lookup2 s.user_memories user_id memory_id = some mem0 →
        ∃ mem : Memory,
          lookup2 (s.update memory_id data user_id).2.user_memories user_id memory_id = some mem
          ∧ mem.vector.length = s.vector_size
          ∧ (tokenize data = [] → mem.vector = List.replicate s.vector_size 0)
          ∧ (tokenize data ≠ [] → sumSq mem.vector = 1
              ∧ mem.vector ≠ List.replicate s.vector_size 0)) := by
  constructor
  · intro text user_id category newId
    obtain ⟨hlen, hnil, hpos⟩ := vectorizeText_spec s text hD
    exact ⟨⟨newId, text, ⟨text, category⟩, (vectorizeText s text).1⟩,
      lookup2_add_self s text user_id category newId, hlen, hnil, hpos⟩
  · intro memory_id data user_id mem0 h0
    obtain ⟨hlen, hnil, hpos⟩ := vectorizeText_spec s data hD
    exact ⟨{ mem0 with text := data,
                       metadata := { mem0.metadata with data := data },
                       vector := (vectorizeText s data).1 },
      lookup2_update_self h0 data, hlen, hnil, hpos⟩

/-- Witness: the unit-norm statement applied to the sample store
(`vector_size = 100`) and a successful cross-check on `update`. -/
theorem stored_vectors_unit_norm_witness :
    (∃ mem : Memory,
        lookup2 (crossUserCache.add "walk in park" "u1" "c" "m2").2.user_memories "u1" "m2" =
          some mem
        ∧ mem.vector.length = crossUserCache.vector_size
        ∧ (tokenize "walk in park" = [] →
            mem.vector = List.replicate crossUserCache.vector_size 0)
        ∧ (tokenize "walk in park" ≠ [] → sumSq mem.vector = 1
            ∧ mem.vector ≠ List.replicate crossUserCache.vector_size 0))
    ∧ (∃ mem : Memory,
        lookup2 (crossUserCache.update "m1" "swim" "u1").2.user_memories "u1" "m1" = some mem
        ∧ mem.vector.length = crossUserCache.vector_size
        ∧ (tokenize "swim" = [] → mem.vector = List.replicate crossUserCache.vector_size 0)
        ∧ (tokenize "swim" ≠ [] → sumSq mem.vector = 1
            ∧ mem.vector ≠ List.replicate crossUserCache.vector_size 0)) :=
  ⟨(stored_vectors_unit_norm crossUserCache (by decide)).1 "walk in park" "u1" "c" "m2",
   (stored_vectors_unit_norm crossUserCache (by decide)).2 "m1" "swim" "u1"
     ⟨"m1", "hi", ⟨"hi", "general"⟩, [1]⟩ rfl⟩

/-! ### Claim C8: configuration errors -/

theorem except_map_error_iff {e : Except String α} {f : α → β} :
    (∃ msg, e.map f = Except.error msg) ↔ (∃ msg, e = Except.error msg) := by
  cases e <;> simp [Except.map]

theorem buildLLM_error_iff (config : AppConfig) (env_api_key : Option String) :
    (∃ e, buildLLM config env_api_key = Except.error e) ↔
      ∃ lc, config.llm = some lc ∧
        (lc.provider ≠ some "openai"
         ∨ (pyOrStr (lc.config.getD emptyProviderConfig).api_key env_api_key).getD "" = "") := by
  cases hlm : config.llm with
  | none => simp [buildLLM, hlm]
  | some lc =>
    by_cases hp : lc.provider = some "openai"
    · by_cases hk :
          (pyOrStr (lc.config.getD emptyProviderConfig).api_key env_api_key).getD "" = ""
      · simp [buildLLM, hlm, hp, mkOpenAILLM, hk, Except.map]
      · simp [buildLLM, hlm, hp, mkOpenAILLM, hk, Except.map]
    · simp [buildLLM, hlm, hp]

/-- Claim C8 (amended): construction from a configuration fails exactly when
the backend selector is neither `"disk"` nor `"sqlite"`, or a (truthy) LLM
section is present whose provider is not `"openai"`, or whose provider is
`"openai"` but neither the section's `api_key` nor the environment supplies
a non-empty key; `enhance_memory` and `generate_summary` fail exactly when
no text-generation service is attached. -/
theorem configuration_error_characterisation :
    (∀ (config : AppConfig) (env_api_key : Option String),
        (∃ e, from_config config env_api_key = Except.error e) ↔
          ((((config.storage.getD ⟨none⟩).backend).getD "disk" ≠ "disk"
            ∧ ((config.storage.getD ⟨none⟩).backend).getD "disk" ≠ "sqlite")
           ∨ ∃ lc, config.llm = some lc ∧
               (lc.provider ≠ some "openai"
                ∨ (pyOrStr (lc.config.getD emptyProviderConfig).api_key
                    env_api_key).getD "" = "")))
    ∧ (∀ (s : RedCache) (text user_id category newId : String),
        (∃ e, (s.enhance_memory text user_id category newId).1 = Except.error e) ↔
          s.llm = none)
    ∧ (∀ (s : RedCache) (user_id : String),
        (∃ e, s.generate_summary user_id = Except.error e) ↔ s.llm = none) := by
  refine ⟨?_, ?_, ?_⟩
  · intro config env_api_key
    by_cases h1 : ((config.storage.getD ⟨none⟩).backend).getD "disk" = "disk"
    · have hfc : from_config config env_api_key =
          (buildLLM config env_api_key).map (fun l => (StorageChoice.disk, l)) := by
        unfold from_config
        rw [if_pos h1]
      rw [hfc]
      rw [except_map_error_iff, buildLLM_error_iff]
      simp [h1]
    · by_cases h2 : ((config.storage.getD ⟨none⟩).backend).getD "disk" = "sqlite"
      · have hfc : from_config config env_api_key =
            (buildLLM config env_api_key).map (fun l => (StorageChoice.sqlite, l)) := by
          unfold from_config
          rw [if_neg h1, if_pos h2]
        rw [hfc]
        rw [except_map_error_iff, buildLLM_error_iff]
        simp [h2]
      · have hfc : from_config config env_api_key =
            Except.error ("Unsupported storage backend: " ++
              ((config.storage.getD ⟨none⟩).backend).getD "disk") := by
          unfold from_config
          rw [if_neg h1, if_neg h2]
        rw [hfc]
        constructor
        · intro _
          exact Or.inl ⟨h1, h2⟩
        · intro _
          exact ⟨_, rfl⟩
  · intro s text user_id category newId
    cases hl : s.llm with
    | none => simp [RedCache.enhance_memory, hl]
    | some gen => simp [RedCache.enhance_memory, hl]
  · intro s user_id
    cases hl : s.llm with
    | none => simp [RedCache.generate_summary, hl]
    | some gen => simp [RedCache.generate_summary, hl]

/-- Witness: the `generate_summary` characterisation at the sample store,
which has no LLM attached. -/
theorem configuration_error_witness :
    (∃ e, crossUserCache.generate_summary "u1" = Except.error e) ↔
      crossUserCache.llm = none :=
  configuration_error_characterisation.2.2 crossUserCache "u1"

/-- Counterexample to claim C8 as stated: with the supported backend
`"disk"` and the recognised provider `"openai"`, construction still fails
when neither the config nor the environment provides an API key — a failure
case outside the claim's "exactly when" condition. -/
theorem from_config_counterexample :
    (∃ e, from_config ⟨some ⟨some "disk"⟩, some ⟨some "openai", some emptyProviderConfig⟩⟩
        none = Except.error e)
    ∧ (((⟨some ⟨some "disk"⟩, some ⟨some "openai", some emptyProviderConfig⟩⟩ :
          AppConfig).storage.getD ⟨none⟩).backend).getD "disk" = "disk"
    ∧ ∃ lc, (⟨some ⟨some "disk"⟩, some ⟨some "openai", some emptyProviderConfig⟩⟩ :
          AppConfig).llm = some lc ∧ lc.provider = some "openai" :=
  ⟨⟨"API key not found. Please provide it in the config or set the OPENAI_API_KEY environment variable.", rfl⟩,
   rfl, ⟨⟨some "openai", some emptyProviderConfig⟩, rfl, rfl⟩⟩

/-! ### Claim C3: what delete removes from the similarity index -/

theorem aget_map_adel [DecidableEq κ] (J k : κ) (l : List (κ × List (κ × α))) :
    aget J (l.map (fun je => (je.1, adel k je.2))) = (aget J l).map (adel k) := by
  induction l with
  | nil => simp [aget]
  | cons hd t ih =>
    by_cases hj : hd.1 = J
    · simp [aget, hj]
    · simp [aget, hj, ih]

theorem delete_vector_index_of_present {s : RedCache} {memory_id user_id : String}
    (h : (lookup2 s.user_memories user_id memory_id).isSome) :
    (s.delete memory_id user_id).vector_index =
      s.vector_index.map (fun je => (je.1, adel memory_id je.2)) := by
  simp [RedCache.delete, h]

theorem delete_vector_data_of_present {s : RedCache} {memory_id user_id : String}
    (h : (lookup2 s.user_memories user_id memory_id).isSome) :
    (s.delete memory_id user_id).vector_data = adel memory_id s.vector_data := by
  simp [RedCache.delete, h]

/-- Claim C3 (amended): when the pair exists, `delete(K, user_id)` removes
`K`'s Memory record, `K`'s vector, and, in every row of the similarity
index, the column entry keyed by `K` — but it does NOT remove `K`'s own row:
every row key survives, merely pruned of column `K`, so `K` can remain as a
row key (carrying entries for ids inserted after `K`). -/
theorem delete_index_characterisation (s : RedCache) (memory_id user_id : String)
    (hp : (lookup2 s.user_memories user_id memory_id).isSome)
    (hnu : (akeys ((aget user_id s.user_memories).getD [])).Nodup)
    (hnv : (akeys s.vector_data).Nodup)
    (hnr : ∀ row ∈ s.vector_index, (akeys row.2).Nodup) :
    lookup2 (s.delete memory_id user_id).user_memories user_id memory_id = none
    ∧ aget memory_id (s.delete memory_id user_id).vector_data = none
    ∧ (∀ row ∈ (s.delete memory_id user_id).vector_index, aget memory_id row.2 = none)
    ∧ (∀ J, aget J (s.delete memory_id user_id).vector_index =
        (aget J s.vector_index).map (adel memory_id)) := by
  refine ⟨?_, ?_, ?_, ?_⟩
  · rw [delete_user_memories_of_present hp]
    unfold lookup2
    rw [aget_aset_self]
    show aget memory_id (adel memory_id ((aget user_id s.user_memories).getD [])) = none
    exact aget_adel_self hnu
  · rw [delete_vector_data_of_present hp]
    exact aget_adel_self hnv
  · intro row hrow
    rw [delete_vector_index_of_present hp] at hrow
    obtain ⟨je, hje, hmap⟩ := List.mem_map.mp hrow
    have : row.2 = adel memory_id je.2 := by rw [← hmap]
    rw [this]
    exact aget_adel_self (hnr je hje)
  · intro J
    rw [delete_vector_index_of_present hp]
    exact aget_map_adel J memory_id s.vector_index

/-- Witness for the amended delete characterisation on the sample store. -/
theorem delete_index_characterisation_witness :
    lookup2 (crossUserCache.delete "m1" "u1").user_memories "u1" "m1" = none
    ∧ aget "m1" (crossUserCache.delete "m1" "u1").vector_data = none
    ∧ (∀ row ∈ (crossUserCache.delete "m1" "u1").vector_index, aget "m1" row.2 = none)
    ∧ (∀ J, aget J (crossUserCache.delete "m1" "u1").vector_index =
        (aget J crossUserCache.vector_index).map (adel "m1")) :=
  delete_index_characterisation crossUserCache "m1" "u1" rfl
    (by decide) (by decide) (by decide)

/-- A store reached from empty construction by `add "a"` (id `m1`) then
`add "b"` (id `m2`), with `vector_size = 3`. -/
noncomputable def twoAddState : RedCache :=
  ((((mkRedCache [] 3 (fun _ => 0) none).add "a" "u1" "general" "m1").2).add
    "b" "u1" "general" "m2").2

/-- Counterexample to claim C3 as stated: after deleting `m1`, the
similarity index still contains a row keyed `m1` (holding the entry for
`m2`, inserted while `m1` existed), so an entry keyed by `K` as a row key
does remain. -/
theorem delete_index_counterexample :
    (aget "m1" ((twoAddState.delete "m1" "u1").vector_index)).isSome = true := by
  decide

/-! ### Claim C2: search results -/

theorem mem_insertDesc {z x : Memory × ℝ} {l : List (Memory × ℝ)} :
    z ∈ insertDesc x l ↔ z = x ∨ z ∈ l := by
  induction l with
  | nil => simp [insertDesc]
  | cons y ys ih =>
    by_cases hlt : x.2 < y.2
    · rw [show insertDesc x (y :: ys) = y :: insertDesc x ys from by
        simp [insertDesc, hlt]]
      simp only [List.mem_cons, ih]
      tauto
    · rw [show insertDesc x (y :: ys) = x :: y :: ys from by
        simp [insertDesc, hlt]]
      simp [List.mem_cons]

theorem insertDesc_perm (x : Memory × ℝ) (l : List (Memory × ℝ)) :
    (insertDesc x l).Perm (x :: l) := by
  induction l with
  | nil => exact List.Perm.refl _
  | cons y ys ih =>
    by_cases hlt : x.2 < y.2
    · rw [show insertDesc x (y :: ys) = y :: insertDesc x ys from by
        simp [insertDesc, hlt]]
      exact (List.Perm.cons y ih).trans (List.Perm.swap x y ys)
    · rw [show insertDesc x (y :: ys) = x :: y :: ys from by
        simp [insertDesc, hlt]]

theorem pySortDesc_perm (l : List (Memory × ℝ)) : (pySortDesc l).Perm l := by
  induction l with
  | nil => exact List.Perm.refl _
  | cons x xs ih =>
    exact (insertDesc_perm x (pySortDesc xs)).trans (List.Perm.cons x ih)

theorem length_pySortDesc (l : List (Memory × ℝ)) : (pySortDesc l).length = l.length :=
  (pySortDesc_perm l).length_eq

theorem sortedDesc_insertDesc {x : Memory × ℝ} {l : List (Memory × ℝ)}
    (h : List.Pairwise (fun a b : Memory × ℝ => b.2 ≤ a.2) l) :
    List.Pairwise (fun a b : Memory × ℝ => b.2 ≤ a.2) (insertDesc x l) := by
  induction l with
  | nil => simp [insertDesc]
  | cons y ys ih =>
    rw [List.pairwise_cons] at h
    by_cases hlt : x.2 < y.2
    · rw [show insertDesc x (y :: ys) = y :: insertDesc x ys from by
        simp [insertDesc, hlt]]
      rw [List.pairwise_cons]
      refine ⟨?_, ih h.2⟩
      intro z hz
      rcases mem_insertDesc.mp hz with hz | hz
      · rw [hz]
        exact le_of_lt hlt
      · exact h.1 z hz
    · rw [show insertDesc x (y :: ys) = x :: y :: ys from by
        simp [insertDesc, hlt]]
      rw [List.pairwise_cons]
      refine ⟨?_, List.pairwise_cons.mpr h⟩
      intro z hz
      rcases List.mem_cons.mp hz with hz | hz
      · rw [hz]
        exact le_of_not_lt hlt
      · exact le_trans (h.1 z hz) (le_of_not_lt hlt)

theorem sortedDesc_pySortDesc (l : List (Memory × ℝ)) :
    List.Pairwise (fun a b : Memory × ℝ => b.2 ≤ a.2) (pySortDesc l) := by
  induction l with
  | nil => simp [pySortDesc]
  | cons x xs ih => exact sortedDesc_insertDesc ih

theorem filter_insertDesc (c : ℝ) (x : Memory × ℝ) (l : List (Memory × ℝ)) :
    (insertDesc x l).filter (fun p => decide (p.2 = c)) =
      (x :: l).filter (fun p => decide (p.2 = c)) := by
  induction l with
  | nil => rfl
  | cons y ys ih =>
    by_cases hlt : x.2 < y.2
    · rw [show insertDesc x (y :: ys) = y :: insertDesc x ys from by
        simp [insertDesc, hlt]]
      by_cases hx : x.2 = c
      · have hy : ¬(y.2 = c) := by
          intro hy
          rw [hx, hy] at hlt
          exact lt_irrefl c hlt
        simp [List.filter_cons, hx, hy, ih]
      · by_cases hy : y.2 = c
        · simp [List.filter_cons, hx, hy, ih]
        · simp [List.filter_cons, hx, hy, ih]
    · rw [show insertDesc x (y :: ys) = x :: y :: ys from by
        simp [insertDesc, hlt]]

theorem filter_pySortDesc (c : ℝ) (l : List (Memory × ℝ)) :
    (pySortDesc l).filter (fun p => decide (p.2 = c)) =
      l.filter (fun p => decide (p.2 = c)) := by
  induction l with
  | nil => rfl
  | cons x xs ih =>
    rw [show pySortDesc (x :: xs) = insertDesc x (pySortDesc xs) from rfl,
      filter_insertDesc, List.filter_cons, List.filter_cons, ih]

theorem length_pySlice (n : Int) (l : List α) :
    (pySlice n l).length =
      if 0 ≤ n then min n.toNat l.length else l.length - (-n).toNat := by
  unfold pySlice
  split
  · simp [List.length_take]
  · rw [List.length_take]
    exact Nat.min_eq_left (Nat.sub_le _ _)

theorem pySlice_subset (n : Int) (l : List α) : ∀ p ∈ pySlice n l, p ∈ l := by
  unfold pySlice
  split
  · exact fun p hp => List.take_subset _ _ hp
  · exact fun p hp => List.take_subset _ _ hp

theorem pySlice_sublist (n : Int) (l : List α) : (pySlice n l).Sublist l := by
  unfold pySlice
  split
  · exact List.take_sublist _ _
  · exact List.take_sublist _ _

theorem search_unfold (s : RedCache) (query user_id : String) (n : Int) :
    (s.search query user_id n).1 =
      pySlice n (pySortDesc (((aget user_id s.user_memories).getD []).map
        (fun me => (me.2, dotl (vectorizeText s query).1 me.2.vector)))) := rfl

theorem search_result_length (s : RedCache) (query user_id : String) (n : Int) :
    (s.search query user_id n).1.length =
      if 0 ≤ n then min n.toNat ((aget user_id s.user_memories).getD []).length
      else ((aget user_id s.user_memories).getD []).length - (-n).toNat := by
  rw [search_unfold, length_pySlice, length_pySortDesc, List.length_map]

/-- Claim C2 (amended): `search` returns only the queried user's memories,
each paired with its score, in non-increasing score order with ties keeping
the storage order (any fixed score class is listed exactly as in storage
order); it returns at most `num_results` entries when `num_results ≥ 0`
(empty for `num_results = 0`, everything sorted when `num_results` is at
least the available count), an empty sequence for an unknown user — but for
negative `num_results` Python slice semantics apply: the last
`|num_results|` entries of the sorted list are dropped instead of the
result being empty. -/
theorem search_characterisation (s : RedCache) (query user_id : String) (n : Int) :
    (∀ p ∈ (s.search query user_id n).1,
        ∃ mid, (mid, p.1) ∈ (aget user_id s.user_memories).getD [])
    ∧ List.Pairwise (fun a b : Memory × ℝ => b.2 ≤ a.2) (s.search query user_id n).1
    ∧ (∀ c : ℝ,
        (pySortDesc (((aget user_id s.user_memories).getD []).map
            (fun me => (me.2, dotl (vectorizeText s query).1 me.2.vector)))).filter
            (fun p => decide (p.2 = c)) =
          (((aget user_id s.user_memories).getD []).map
            (fun me => (me.2, dotl (vectorizeText s query).1 me.2.vector))).filter
            (fun p => decide (p.2 = c)))
    ∧ (aget user_id s.user_memories = none → (s.search query user_id n).1 = [])
    ∧ (n = 0 → (s.search query user_id n).1 = [])
    ∧ (0 ≤ n → (s.search query user_id n).1.length =
        min n.toNat ((aget user_id s.user_memories).getD []).length)
    ∧ (n < 0 → (s.search query user_id n).1.length =
        ((aget user_id s.user_memories).getD []).length - (-n).toNat)
    ∧ ((((aget user_id s.user_memories).getD []).length : Int) ≤ n →
        (s.search query user_id n).1.Perm
          (((aget user_id s.user_memories).getD []).map
            (fun me => (me.2, dotl (vectorizeText s query).1 me.2.vector)))) := by
  refine ⟨?_, ?_, fun c => filter_pySortDesc c _, ?_, ?_, ?_, ?_, ?_⟩
  · intro p hp
    rw [search_unfold] at hp
    have h1 := pySlice_subset _ _ p hp
    have h2 := (pySortDesc_perm _).mem_iff.mp h1
    obtain ⟨me, hme, hfme⟩ := List.mem_map.mp h2
    refine ⟨me.1, ?_⟩
    have : p.1 = me.2 := by rw [← hfme]
    rw [this]
    exact hme
  · rw [search_unfold]
    exact (sortedDesc_pySortDesc _).sublist (pySlice_sublist _ _)
  · intro hnone
    rw [search_unfold, hnone]
    show pySlice n (pySortDesc (List.map _ [])) = []
    rw [List.map_nil]
    show pySlice n [] = []
    unfold pySlice
    split <;> simp
  · intro hn
    subst hn
    have := search_result_length s query user_id 0
    rw [if_pos le_rfl] at this
    simp only [Int.toNat_zero, Nat.zero_min, Nat.min_comm] at this
    exact List.length_eq_zero.mp (by omega)
  · intro hn
    rw [search_result_length, if_pos hn]
  · intro hn
    rw [search_result_length, if_neg (not_le.mpr hn)]
  · intro hn
    rw [search_unfold]
    have hlen : (pySortDesc (((aget user_id s.user_memories).getD []).map
        (fun me => (me.2, dotl (vectorizeText s query).1 me.2.vector)))).length ≤ n.toNat := by
      rw [length_pySortDesc, List.length_map]
      omega
    have h0n : 0 ≤ n := le_trans (Int.ofNat_nonneg _) hn
    have heq : pySlice n (pySortDesc (((aget user_id s.user_memories).getD []).map
        (fun me => (me.2, dotl (vectorizeText s query).1 me.2.vector)))) =
        pySortDesc (((aget user_id s.user_memories).getD []).map
          (fun me => (me.2, dotl (vectorizeText s query).1 me.2.vector))) := by
      unfold pySlice
      rw [if_pos h0n]
      exact List.take_of_length_le hlen
    rw [heq]
    exact pySortDesc_perm _

/-- Witness: concrete consequences of the search characterisation —
`num_results = 0` and an unknown user give the empty result, and a positive
`num_results` bounds the length. -/
theorem search_characterisation_witness :
    (crossUserCache.search "hello" "u1" 0).1 = []
    ∧ (crossUserCache.search "hello" "u2" 3).1 = []
    ∧ (crossUserCache.search "hello" "u1" 5).1.length =
        min (5 : Int).toNat ((aget "u1" crossUserCache.user_memories).getD []).length :=
  ⟨(search_characterisation crossUserCache "hello" "u1" 0).2.2.2.2.1 rfl,
   (search_characterisation crossUserCache "hello" "u2" 3).2.2.2.1 rfl,
   (search_characterisation crossUserCache "hello" "u1" 5).2.2.2.2.2.1 (by decide)⟩

/-- A store whose user `u1` owns two memories with empty text (hence zero
vectors), as produced by two `add("")` calls with `vector_size = 2`. -/
noncomputable def zeroVecState : RedCache :=
  { user_memories := [("u1", [("m1", ⟨"m1", "", ⟨"", "general"⟩, [0, 0]⟩),
                              ("m2", ⟨"m2", "", ⟨"", "general"⟩, [0, 0]⟩)])],
    vector_data := [("m1", [0, 0]), ("m2", [0, 0])],
    vector_index := [("m1", [("m1", 0), ("m2", 0)]), ("m2", [("m2", 0)])],
    vector_size := 2, vocabulary := [], strHash := fun _ => 0, llm := none,
    saved := [("u1", [("m1", ⟨"m1", "", ⟨"", "general"⟩, [0, 0]⟩),
                      ("m2", ⟨"m2", "", ⟨"", "general"⟩, [0, 0]⟩)])] }

/-- Counterexample to claim C2 as stated: with two stored memories,
`search(query, "u1", -1)` returns one result, not the empty sequence the
claim requires for `num_results ≤ 0` — Python's `results[:-1]` drops only
the last entry. -/
theorem search_counterexample :
    ((zeroVecState.search "" "u1" (-1)).1).length = 1 := by
  rw [search_result_length]
  decide

/-! ### Claim C5: memory ids and vector-table keys coincide -/

/-- All memory ids across the user map, in storage order. -/
def allIds (d : PyDict (PyDict Memory)) : List String :=
  (d.map (fun ue => akeys ue.2)).flatten

/-- The cross-structure invariant of claim C5 (with the wellformedness a
run of the store maintains: duplicate-free user keys, memory ids and
vector-table keys). -/
def vecInv (s : RedCache) : Prop :=
  (akeys s.user_memories).Nodup
  ∧ (allIds s.user_memories).Nodup
  ∧ (akeys s.vector_data).Nodup
  ∧ (∀ id ∈ allIds s.user_memories, id ∈ akeys s.vector_data)
  ∧ (∀ id ∈ akeys s.vector_data, id ∈ allIds s.user_memories)

instance (s : RedCache) : Decidable (vecInv s) := by
  unfold vecInv; infer_instance

theorem adel_of_not_mem [DecidableEq κ] {k : κ} {l : List (κ × α)} (h : k ∉ akeys l) :
    adel k l = l := by
  induction l with
  | nil => rfl
  | cons hd t ih =>
    simp only [akeys, List.map_cons, List.mem_cons] at h
    push_neg at h
    rw [adel, if_neg (Ne.symm h.1), ih h.2]

/-- Replacing a present user's inner dict rewrites exactly that segment of
the id list, and deleting the user entry drops it. -/
theorem allIds_decompose {d : PyDict (PyDict Memory)} {u : String}
    {um : PyDict Memory} (h : aget u d = some um) (um' : PyDict Memory) :
    ∃ l1 l2, allIds d = l1 ++ (akeys um ++ l2)
      ∧ allIds (aset u um' d) = l1 ++ (akeys um' ++ l2)
      ∧ allIds (adel u d) = l1 ++ l2 := by
  induction d with
  | nil => simp [aget] at h
  | cons ue d ih =>
    by_cases hu : ue.1 = u
    · rw [aget, if_pos hu] at h
      cases h
      refine ⟨[], allIds d, ?_, ?_, ?_⟩
      · simp [allIds]
      · rw [aset, if_pos hu]
        simp [allIds]
      · rw [adel, if_pos hu]
        simp [allIds]
    · rw [aget, if_neg hu] at h
      obtain ⟨l1, l2, h1, h2, h3⟩ := ih h
      refine ⟨akeys ue.2 ++ l1, l2, ?_, ?_, ?_⟩
      · rw [show allIds (ue :: d) = akeys ue.2 ++ allIds d from by simp [allIds]]
        rw [h1, List.append_assoc]
      · rw [aset, if_neg hu]
        rw [show allIds (ue :: aset u um' d) = akeys ue.2 ++ allIds (aset u um' d) from by
          simp [allIds]]
        rw [h2, List.append_assoc]
      · rw [adel, if_neg hu]
        rw [show allIds (ue :: adel u d) = akeys ue.2 ++ allIds (adel u d) from by
          simp [allIds]]
        rw [h3, List.append_assoc]

/-- Appending a fresh user adds its ids at the end. -/
theorem allIds_aset_of_none {d : PyDict (PyDict Memory)} {u : String}
    (h : aget u d = none) (um' : PyDict Memory) :
    allIds (aset u um' d) = allIds d ++ akeys um' := by
  induction d with
  | nil => simp [aset, allIds]
  | cons ue d ih =>
    by_cases hu : ue.1 = u
    · rw [aget, if_pos hu] at h
      cases h
    · rw [aget, if_neg hu] at h
      rw [aset, if_neg hu]
      rw [show allIds (ue :: aset u um' d) = akeys ue.2 ++ allIds (aset u um' d) from by
        simp [allIds]]
      rw [show allIds (ue :: d) = akeys ue.2 ++ allIds d from by simp [allIds]]
      rw [ih h, List.append_assoc]

theorem nodup_insert_middle {l1 lm l2 : List String} {a : String}
    (h : (l1 ++ (lm ++ l2)).Nodup) (ha : a ∉ l1 ++ (lm ++ l2)) :
    (l1 ++ ((lm ++ [a]) ++ l2)).Nodup := by
  have hperm : (l1 ++ ((lm ++ [a]) ++ l2)).Perm (a :: (l1 ++ (lm ++ l2))) := by
    have h1 : l1 ++ ((lm ++ [a]) ++ l2) = (l1 ++ lm) ++ (a :: l2) := by
      simp [List.append_assoc]
    have h2 : l1 ++ (lm ++ l2) = (l1 ++ lm) ++ l2 := by
      simp [List.append_assoc]
    rw [h1, h2]
    exact List.perm_middle
  exact hperm.nodup_iff.mpr (List.nodup_cons.mpr ⟨ha, h⟩)

theorem mem_insert_middle {l1 lm l2 : List String} {a x : String} :
    x ∈ l1 ++ ((lm ++ [a]) ++ l2) ↔ x = a ∨ x ∈ l1 ++ (lm ++ l2) := by
  simp only [List.mem_append, List.mem_singleton]
  tauto

theorem mid_not_in_sides {l1 lm l2 : List String} {mid : String}
    (hna : (l1 ++ (lm ++ l2)).Nodup) (hmem : mid ∈ lm) :
    mid ∉ l1 ∧ mid ∉ l2 ∧ lm.Nodup := by
  rw [List.nodup_append] at hna
  obtain ⟨h1, h23, hd1⟩ := hna
  rw [List.nodup_append] at h23
  obtain ⟨h2, h3, hd2⟩ := h23
  exact ⟨fun hc => hd1 hc (List.mem_append_left _ hmem), fun hc => hd2 hmem hc, h2⟩

theorem vecInv_add {s : RedCache} (hs : vecInv s) (text user_id category : String)
    {newId : String} (hfresh : newId ∉ allIds s.user_memories) :
    vecInv (s.add text user_id category newId).2 := by
  obtain ⟨hnu, hna, hnv, hmv, hvm⟩ := hs
  have hfreshv : newId ∉ akeys s.vector_data := fun hc => hfresh (hvm _ hc)
  cases hg : aget user_id s.user_memories with
  | some um =>
    have hu : (aget user_id s.user_memories).isSome := by rw [hg]; rfl
    have hum : (s.add text user_id category newId).2.user_memories =
        aset user_id (aset newId ⟨newId, text, ⟨text, category⟩, (vectorizeText s text).1⟩ um)
          s.user_memories := by
      rw [add_user_memories, if_pos hu, hg]
      rfl
    obtain ⟨l1, l2, hd1, hd2, _⟩ := allIds_decompose hg
      (aset newId ⟨newId, text, ⟨text, category⟩, (vectorizeText s text).1⟩ um)
    have hnid_um : newId ∉ akeys um := by
      intro hc
      exact hfresh (by rw [hd1]; exact List.mem_append_right _ (List.mem_append_left _ hc))
    have hkeys' : akeys (aset newId (⟨newId, text, ⟨text, category⟩,
        (vectorizeText s text).1⟩ : Memory) um) = akeys um ++ [newId] :=
      akeys_aset_not_mem _ hnid_um
    rw [hd1] at hna hfresh
    refine ⟨?_, ?_, ?_, ?_, ?_⟩
    · rw [hum]
      exact (akeys_aset_mem _ ((isSome_aget_iff _ _).mp hu)) ▸ hnu
    · rw [hum, hd2, hkeys']
      exact nodup_insert_middle hna hfresh
    · rw [add_vector_data]
      exact nodup_akeys_aset _ hnv
    · intro id hid
      rw [hum, hd2, hkeys'] at hid
      rw [add_vector_data, mem_akeys_aset]
      rcases mem_insert_middle.mp hid with h | h
      · exact Or.inl h
      · exact Or.inr (hmv id (by rw [hd1]; exact h))
    · intro id hid
      rw [add_vector_data, mem_akeys_aset] at hid
      rw [hum, hd2, hkeys', mem_insert_middle]
      rcases hid with h | h
      · exact Or.inl h
      · exact Or.inr (hd1 ▸ hvm id h)
  | none =>
    have hu : ¬(aget user_id s.user_memories).isSome = true := by rw [hg]; simp
    have hum0 : aget user_id (aset user_id ([] : PyDict Memory) s.user_memories) = some [] :=
      aget_aset_self _ _ _
    have hum : (s.add text user_id category newId).2.user_memories =
        aset user_id (aset newId ⟨newId, text, ⟨text, category⟩, (vectorizeText s text).1⟩ [])
          (aset user_id [] s.user_memories) := by
      rw [add_user_memories, if_neg hu, hum0]
      rfl
    obtain ⟨l1, l2, hd1, hd2, _⟩ := allIds_decompose hum0
      (aset newId ⟨newId, text, ⟨text, category⟩, (vectorizeText s text).1⟩ [])
    have hall0 : allIds (aset user_id ([] : PyDict Memory) s.user_memories) =
        allIds s.user_memories := by
      rw [allIds_aset_of_none hg]
      simp [akeys]
    have hkeys' : akeys (aset newId (⟨newId, text, ⟨text, category⟩,
        (vectorizeText s text).1⟩ : Memory) ([] : PyDict Memory)) =
        akeys ([] : PyDict Memory) ++ [newId] := by
      simp [aset, akeys]
    have hl12 : l1 ++ l2 = allIds s.user_memories := by
      have := hd1
      rw [hall0] at this
      simpa [akeys] using this.symm
    have hna' : (l1 ++ (([] : List String) ++ l2)).Nodup := by
      simpa using (hl12 ▸ hna : (l1 ++ l2).Nodup)
    have hfresh' : newId ∉ l1 ++ (([] : List String) ++ l2) := by
      simpa using (hl12 ▸ hfresh : newId ∉ l1 ++ l2)
    have hnu0 : (akeys (aset user_id ([] : PyDict Memory) s.user_memories)).Nodup :=
      nodup_akeys_aset _ hnu
    refine ⟨?_, ?_, ?_, ?_, ?_⟩
    · rw [hum]
      exact (akeys_aset_mem _ ((isSome_aget_iff _ _).mp (by rw [hum0]; rfl))) ▸ hnu0
    · rw [hum, hd2, hkeys']
      exact nodup_insert_middle hna' hfresh'
    · rw [add_vector_data]
      exact nodup_akeys_aset _ hnv
    · intro id hid
      rw [hum, hd2, hkeys'] at hid
      rw [add_vector_data, mem_akeys_aset]
      rcases mem_insert_middle.mp hid with h | h
      · exact Or.inl h
      · refine Or.inr (hmv id ?_)
        rw [← hl12]
        simpa [akeys] using h
    · intro id hid
      rw [add_vector_data, mem_akeys_aset] at hid
      rw [hum, hd2, hkeys', mem_insert_middle]
      rcases hid with h | h
      · exact Or.inl h
      · refine Or.inr ?_
        have := hvm id h
        rw [← hl12] at this
        simpa [akeys] using this

theorem vecInv_update {s : RedCache} (hs : vecInv s) (memory_id data user_id : String) :
    vecInv (s.update memory_id data user_id).2 := by
  cases hl : lookup2 s.user_memories user_id memory_id with
  | none =>
    have : (s.update memory_id data user_id).2 = s := by
      unfold RedCache.update
      rw [hl]
    rw [this]
    exact hs
  | some mem0 =>
    obtain ⟨hnu, hna, hnv, hmv, hvm⟩ := hs
    have hg : ∃ um, aget user_id s.user_memories = some um ∧ aget memory_id um = some mem0 := by
      unfold lookup2 at hl
      cases hga : aget user_id s.user_memories with
      | none => rw [hga] at hl; cases hl
      | some um => rw [hga] at hl; exact ⟨um, rfl, hl⟩
    obtain ⟨um, hga, hgm⟩ := hg
    have hmidum : memory_id ∈ akeys um := (isSome_aget_iff _ _).mp (by rw [hgm]; rfl)
    have hum : (s.update memory_id data user_id).2.user_memories =
        aset user_id (aset memory_id
          { mem0 with text := data, metadata := { mem0.metadata with data := data },
                      vector := (vectorizeText s data).1 } um) s.user_memories := by
      rw [update_state_of_some hl]
      show aset user_id (aset memory_id _ ((aget user_id s.user_memories).getD []))
          s.user_memories = _
      rw [hga]
      rfl
    obtain ⟨l1, l2, hd1, hd2, _⟩ := allIds_decompose hga (aset memory_id ({ mem0 with text := data, metadata := { mem0.metadata with data := data }, vector := (vectorizeText s data).1 } : Memory) um)
    have hkeys' : akeys (aset memory_id ({ mem0 with text := data, metadata := { mem0.metadata with data := data }, vector := (vectorizeText s data).1 } : Memory) um) = akeys um :=
      akeys_aset_mem _ hmidum
    have hallEq : allIds (s.update memory_id data user_id).2.user_memories =
        allIds s.user_memories := by
      rw [hum, hd2, hkeys', ← hd1]
    have hmidall : memory_id ∈ allIds s.user_memories := by
      rw [hd1]
      exact List.mem_append_right _ (List.mem_append_left _ hmidum)
    have hvd : (s.update memory_id data user_id).2.vector_data =
        aset memory_id (vectorizeText s data).1 s.vector_data := by
      rw [update_state_of_some hl]
      rfl
    have hkeysvd : akeys (aset memory_id (vectorizeText s data).1 s.vector_data) =
        akeys s.vector_data :=
      akeys_aset_mem _ (hmv _ hmidall)
    refine ⟨?_, ?_, ?_, ?_, ?_⟩
    · rw [hum]
      exact (akeys_aset_mem _ ((isSome_aget_iff _ _).mp (by rw [hga]; rfl))) ▸ hnu
    · rw [hallEq]
      exact hna
    · rw [hvd, hkeysvd]
      exact hnv
    · intro id hid
      rw [hallEq] at hid
      rw [hvd, hkeysvd]
      exact hmv id hid
    · intro id hid
      rw [hvd, hkeysvd] at hid
      rw [hallEq]
      exact hvm id hid

theorem vecInv_delete {s : RedCache} (hs : vecInv s) (memory_id user_id : String) :
    vecInv (s.delete memory_id user_id) := by
  by_cases hp : (lookup2 s.user_memories user_id memory_id).isSome
  · obtain ⟨hnu, hna, hnv, hmv, hvm⟩ := hs
    have hg : ∃ um, aget user_id s.user_memories = some um
        ∧ (aget memory_id um).isSome := by
      unfold lookup2 at hp
      cases hga : aget user_id s.user_memories with
      | none => rw [hga] at hp; simp at hp
      | some um => rw [hga] at hp; exact ⟨um, rfl, hp⟩
    obtain ⟨um, hga, hgm⟩ := hg
    have hmidum : memory_id ∈ akeys um := (isSome_aget_iff _ _).mp hgm
    have hum : (s.delete memory_id user_id).user_memories =
        aset user_id (adel memory_id um) s.user_memories := by
      rw [delete_user_memories_of_present hp, hga]
      rfl
    have hvd : (s.delete memory_id user_id).vector_data =
        adel memory_id s.vector_data := delete_vector_data_of_present hp
    obtain ⟨l1, l2, hd1, hd2, _⟩ := allIds_decompose hga (adel memory_id um)
    have hkeys' : akeys (adel memory_id um) = (akeys um).erase memory_id :=
      akeys_adel _ _
    have hsides := mid_not_in_sides (hd1 ▸ hna) hmidum
    have hmidall : memory_id ∈ allIds s.user_memories := by
      rw [hd1]
      exact List.mem_append_right _ (List.mem_append_left _ hmidum)
    have hsub : (l1 ++ ((akeys um).erase memory_id ++ l2)).Sublist
        (l1 ++ (akeys um ++ l2)) :=
      (List.Sublist.refl l1).append
        (((akeys um).erase_sublist memory_id).append (List.Sublist.refl l2))
    refine ⟨?_, ?_, ?_, ?_, ?_⟩
    · rw [hum]
      exact (akeys_aset_mem _ ((isSome_aget_iff _ _).mp (by rw [hga]; rfl))) ▸ hnu
    · rw [hum, hd2, hkeys']
      exact (hd1 ▸ hna).sublist hsub
    · rw [hvd, akeys_adel]
      exact hnv.erase _
    · intro id hid
      rw [hum, hd2, hkeys'] at hid
      rw [hvd, akeys_adel]
      rcases List.mem_append.mp hid with h1 | h23
      · have hne : id ≠ memory_id := fun hc => hsides.1 (hc ▸ h1)
        rw [List.mem_erase_of_ne hne]
        exact hmv id (by rw [hd1]; exact List.mem_append_left _ h1)
      · rcases List.mem_append.mp h23 with h2 | h3
        · have := (hsides.2.2.mem_erase_iff).mp h2
          rw [List.mem_erase_of_ne this.1]
          exact hmv id (by
            rw [hd1]
            exact List.mem_append_right _ (List.mem_append_left _ this.2))
        · have hne : id ≠ memory_id := fun hc => hsides.2.1 (hc ▸ h3)
          rw [List.mem_erase_of_ne hne]
          exact hmv id (by
            rw [hd1]
            exact List.mem_append_right _ (List.mem_append_right _ h3))
    · intro id hid
      rw [hvd, akeys_adel] at hid
      rw [hum, hd2, hkeys']
      have hne : id ≠ memory_id := by
        intro hc
        subst hc
        exact (List.Nodup.not_mem_erase hnv) hid
      rw [List.mem_erase_of_ne hne] at hid
      have := hvm id hid
      rw [hd1] at this
      rcases List.mem_append.mp this with h1 | h23
      · exact List.mem_append_left _ h1
      · rcases List.mem_append.mp h23 with h2 | h3
        · refine List.mem_append_right _ (List.mem_append_left _ ?_)
          rw [hsides.2.2.mem_erase_iff]
          exact ⟨hne, h2⟩
        · exact List.mem_append_right _ (List.mem_append_right _ h3)
  · rw [delete_of_absent hp]
    exact hs

theorem aget_delete_um {s : RedCache} {u : String} {um : PyDict Memory} (mid : String)
    (h : aget u s.user_memories = some um) :
    aget u (s.delete mid u).user_memories = some (adel mid um) := by
  by_cases hp : (lookup2 s.user_memories u mid).isSome
  · rw [delete_user_memories_of_present hp, h]
    exact aget_aset_self _ _ _
  · rw [delete_of_absent hp, h]
    have hm : aget mid um = none := by
      unfold lookup2 at hp
      rw [h] at hp
      simp only [Option.some_bind] at hp
      cases hg : aget mid um with
      | none => rfl
      | some m => rw [hg] at hp; simp at hp
    rw [adel_of_not_mem ((aget_eq_none_iff _ _).mp hm)]

theorem aget_foldl_delete_um (ids : List String) {s : RedCache} {u : String}
    {um : PyDict Memory} (h : aget u s.user_memories = some um) :
    aget u ((ids.foldl (fun st mid => st.delete mid u) s)).user_memories =
      some (ids.foldl (fun w mid => adel mid w) um) := by
  induction ids generalizing s um with
  | nil => exact h
  | cons i ids ih =>
    rw [List.foldl_cons, List.foldl_cons]
    exact ih (aget_delete_um i h)

theorem foldl_adel_self (um : PyDict Memory) (h : (akeys um).Nodup) :
    (akeys um).foldl (fun w mid => adel mid w) um = [] := by
  induction um with
  | nil => rfl
  | cons me t ih =>
    rw [show akeys (me :: t) = me.1 :: akeys t from rfl, List.foldl_cons]
    rw [show adel me.1 (me :: t) = t from by rw [adel, if_pos rfl]]
    rw [show akeys (me :: t) = me.1 :: akeys t from rfl] at h
    exact ih (List.nodup_cons.mp h).2

theorem vecInv_foldl_delete (ids : List String) {s : RedCache} (hs : vecInv s)
    (user_id : String) :
    vecInv (ids.foldl (fun st mid => st.delete mid user_id) s) := by
  induction ids generalizing s with
  | nil => exact hs
  | cons i ids ih =>
    rw [List.foldl_cons]
    exact ih (vecInv_delete hs i user_id)

theorem nodup_inner_of_vecInv {s : RedCache} (hs : vecInv s) {u : String}
    {um : PyDict Memory} (h : aget u s.user_memories = some um) :
    (akeys um).Nodup := by
  obtain ⟨l1, l2, hd1, _, _⟩ := allIds_decompose h um
  have := hs.2.1
  rw [hd1, List.nodup_append] at this
  exact (List.nodup_append.mp this.2.1).1

theorem vecInv_delete_all {s : RedCache} (hs : vecInv s) (user_id : String) :
    vecInv (s.delete_all user_id) := by
  by_cases h : (aget user_id s.user_memories).isSome
  · cases hg : aget user_id s.user_memories with
    | none => rw [hg] at h; simp at h
    | some um =>
      have hum' : (s.delete_all user_id).user_memories =
          adel user_id (((akeys um).foldl (fun st mid => st.delete mid user_id)
            s).user_memories) := by
        simp [RedCache.delete_all, h, hg]
      have hvd' : (s.delete_all user_id).vector_data =
          (((akeys um).foldl (fun st mid => st.delete mid user_id) s)).vector_data := by
        simp [RedCache.delete_all, h, hg]
      have hnup : (akeys um).Nodup := nodup_inner_of_vecInv hs hg
      have hs1 : vecInv ((akeys um).foldl (fun st mid => st.delete mid user_id) s) :=
        vecInv_foldl_delete _ hs user_id
      have hag1 : aget user_id (((akeys um).foldl (fun st mid => st.delete mid user_id)
          s)).user_memories = some [] := by
        rw [aget_foldl_delete_um _ hg, foldl_adel_self um hnup]
      obtain ⟨hnu1, hna1, hnv1, hmv1, hvm1⟩ := hs1
      obtain ⟨l1, l2, hd1, _, hd3⟩ := allIds_decompose hag1 []
      have hall : allIds (((akeys um).foldl (fun st mid => st.delete mid user_id)
          s)).user_memories = l1 ++ l2 := by
        rw [hd1]
        simp [akeys]
      refine ⟨?_, ?_, ?_, ?_, ?_⟩
      · rw [hum', akeys_adel]
        exact hnu1.erase _
      · rw [hum', hd3]
        rw [hall] at hna1
        exact hna1
      · rw [hvd']
        exact hnv1
      · intro id hid
        rw [hum', hd3] at hid
        rw [hvd']
        exact hmv1 id (by rw [hall]; exact hid)
      · intro id hid
        rw [hvd'] at hid
        rw [hum', hd3]
        have := hvm1 id hid
        rw [hall] at this
        exact this
  · have : s.delete_all user_id = s := by
      simp [RedCache.delete_all, h]
    rw [this]
    exact hs

theorem vecInv_reset (s : RedCache) : vecInv s.reset := by
  refine ⟨?_, ?_, ?_, ?_, ?_⟩ <;> simp [RedCache.reset, akeys, allIds]

/-- The `(memory_id, vector)` rows registered by `_rebuild_vector_data`. -/
def vecPairs (d : PyDict (PyDict Memory)) : PyDict (List ℝ) :=
  (d.map (fun ue => ue.2.map (fun me => (me.1, me.2.vector)))).flatten

theorem akeys_vecPairs (d : PyDict (PyDict Memory)) : akeys (vecPairs d) = allIds d := by
  induction d with
  | nil => rfl
  | cons ue d ih =>
    rw [show vecPairs (ue :: d) = ue.2.map (fun me => (me.1, me.2.vector)) ++ vecPairs d
      from by simp [vecPairs]]
    rw [show allIds (ue :: d) = akeys ue.2 ++ allIds d from by simp [allIds]]
    rw [show akeys (ue.2.map (fun me => (me.1, me.2.vector)) ++ vecPairs d) =
        akeys (ue.2.map (fun me => (me.1, me.2.vector))) ++ akeys (vecPairs d) from
      List.map_append _ _ _]
    rw [ih]
    congr 1
    simp [akeys, List.map_map]

theorem foldl_inner_user_memories (um : PyDict Memory) (st : RedCache) :
    ((um.foldl (fun st2 me =>
        updateIndex { st2 with vector_data := aset me.1 me.2.vector st2.vector_data }
          me.1 me.2.vector) st)).user_memories = st.user_memories := by
  induction um generalizing st with
  | nil => rfl
  | cons me t ih =>
    rw [List.foldl_cons, ih]
    rfl

theorem foldl_outer_user_memories (l : PyDict (PyDict Memory)) (st : RedCache) :
    ((l.foldl (fun st ue =>
        ue.2.foldl (fun st2 me =>
          updateIndex { st2 with vector_data := aset me.1 me.2.vector st2.vector_data }
            me.1 me.2.vector) st) st)).user_memories = st.user_memories := by
  induction l generalizing st with
  | nil => rfl
  | cons ue l ih =>
    rw [List.foldl_cons, ih, foldl_inner_user_memories]

theorem foldl_inner_vector_data (um : PyDict Memory) (st : RedCache) :
    ((um.foldl (fun st2 me =>
        updateIndex { st2 with vector_data := aset me.1 me.2.vector st2.vector_data }
          me.1 me.2.vector) st)).vector_data =
      (um.map (fun me => (me.1, me.2.vector))).foldl
        (fun acc rm => aset rm.1 rm.2 acc) st.vector_data := by
  induction um generalizing st with
  | nil => rfl
  | cons me t ih =>
    rw [List.foldl_cons, ih, List.map_cons, List.foldl_cons]
    rfl

theorem foldl_outer_vector_data (l : PyDict (PyDict Memory)) (st : RedCache) :
    ((l.foldl (fun st ue =>
        ue.2.foldl (fun st2 me =>
          updateIndex { st2 with vector_data := aset me.1 me.2.vector st2.vector_data }
            me.1 me.2.vector) st) st)).vector_data =
      (vecPairs l).foldl (fun acc rm => aset rm.1 rm.2 acc) st.vector_data := by
  induction l generalizing st with
  | nil => rfl
  | cons ue l ih =>
    rw [List.foldl_cons, ih]
    rw [show vecPairs (ue :: l) = ue.2.map (fun me => (me.1, me.2.vector)) ++ vecPairs l
      from by simp [vecPairs]]
    rw [List.foldl_append, foldl_inner_vector_data]

theorem vecInv_mk (loaded : PyDict (PyDict Memory)) (D : ℕ) (h : String → ℕ)
    (llm : Option (String → String)) (hnu : (akeys loaded).Nodup)
    (hna : (allIds loaded).Nodup) : vecInv (mkRedCache loaded D h llm) := by
  have hum : (mkRedCache loaded D h llm).user_memories = loaded := by
    unfold mkRedCache rebuildVectorData
    exact foldl_outer_user_memories loaded _
  have hvd : (mkRedCache loaded D h llm).vector_data =
      (vecPairs loaded).foldl (fun acc rm => aset rm.1 rm.2 acc) [] := by
    unfold mkRedCache rebuildVectorData
    exact foldl_outer_vector_data loaded _
  refine ⟨?_, ?_, ?_, ?_, ?_⟩
  · rw [hum]
    exact hnu
  · rw [hum]
    exact hna
  · rw [hvd]
    exact nodup_akeys_foldl_aset _ List.nodup_nil
  · intro id hid
    rw [hum] at hid
    rw [hvd]
    rw [mem_akeys_foldl_aset]
    exact Or.inl (by rw [akeys_vecPairs]; exact hid)
  · intro id hid
    rw [hvd, mem_akeys_foldl_aset] at hid
    rw [hum]
    rcases hid with h1 | h1
    · rw [akeys_vecPairs] at h1
      exact h1
    · simp [akeys] at h1

/-- Claim C5: after construction (from a wellformed persisted state) and
after every operation, the set of memory ids across the user map equals the
key set of the vector table — both duplicate-free, so every memory has
exactly one vector and every vector belongs to exactly one memory.  `add`
assumes its freshly generated uuid4 id is unused. -/
theorem memory_vector_consistency :
    (∀ (loaded : PyDict (PyDict Memory)) (D : ℕ) (h : String → ℕ)
        (llm : Option (String → String)),
        (akeys loaded).Nodup → (allIds loaded).Nodup →
        vecInv (mkRedCache loaded D h llm))
    ∧ (∀ (s : RedCache) (text user_id category newId : String), vecInv s →
        newId ∉ allIds s.user_memories →
        vecInv (s.add text user_id category newId).2)
    ∧ (∀ (s : RedCache) (memory_id data user_id : String), vecInv s →
        vecInv (s.update memory_id data user_id).2)
    ∧ (∀ (s : RedCache) (memory_id user_id : String), vecInv s →
        vecInv (s.delete memory_id user_id))
    ∧ (∀ (s : RedCache) (user_id : String), vecInv s → vecInv (s.delete_all user_id))
    ∧ (∀ s : RedCache, vecInv s.reset) :=
  ⟨fun loaded D h llm h1 h2 => vecInv_mk loaded D h llm h1 h2,
   fun _ text u c _ hs hf => vecInv_add hs text u c hf,
   fun _ mid d u hs => vecInv_update hs mid d u,
   fun _ mid u hs => vecInv_delete hs mid u,
   fun _ u hs => vecInv_delete_all hs u,
   vecInv_reset⟩

/-- Witness: the consistency invariant holds after a fresh construction and
is preserved by a concrete `add`, `delete` and `delete_all`. -/
theorem memory_vector_consistency_witness :
    vecInv (mkRedCache [] 100 (fun _ => 0) none)
    ∧ vecInv (crossUserCache.add "x" "u1" "c" "m2").2
    ∧ vecInv (crossUserCache.delete "m1" "u1")
    ∧ vecInv (crossUserCache.delete_all "u1") :=
  ⟨memory_vector_consistency.1 [] 100 (fun _ => 0) none (by decide) (by decide),
   memory_vector_consistency.2.1 crossUserCache "x" "u1" "c" "m2" (by decide) (by decide),
   memory_vector_consistency.2.2.2.1 crossUserCache "m1" "u1" (by decide),
   memory_vector_consistency.2.2.2.2.1 crossUserCache "u1" (by decide)⟩
